import Mathlib

/-!
# Resilient email service: shallow embedding of `emailService.js`

The JavaScript classes `RateLimiter`, `CircuitBreaker` and `EmailService` are
translated to Lean structures with explicit state passing.

* Times are the integer millisecond values returned by `Date.now()`; they are
  modelled as `Int`, so that `now - t` keeps its sign when a clock steps back.
* The two sources of nondeterminism are made explicit in a `World`: an
  arbitrary stream of clock readings, and providers whose `sendEmail` outcome
  is an arbitrary function of the position of the invocation in the run.
* The `World` also carries a ghost trace of what happened (clock readings with
  their call site, backend invocations, backoff waits).  The trace never
  influences control flow; it is what the theorems observe.
* A lookup of a provider name that has no circuit breaker makes `trySend`
  throw a `TypeError` in JavaScript; this is the `none` result here.
* `sendEmail` and `trySend` are `async`. A call that is awaited before the next
  one is made is the function `EmailService.sendEmail`; calls that overlap are
  run segment by segment (`start`, `resume`), and `start_steps` shows that the
  segments of a call running on its own add up to `EmailService.sendEmail`.
-/

namespace EmailSvc

/-! ## Environment -/

/-- Call sites of `Date.now()` in the source. -/
inductive Site where
  | allow
  | canTry
  | recordFailure
  deriving DecidableEq, Repr

/-- Ghost events recorded while the service runs. -/
inductive Event where
  /-- a reading of `Date.now()` made at the given call site -/
  | clock (site : Site) (t : Int)
  /-- one invocation of `provider.sendEmail(email)`; `ok` iff it did not throw -/
  | send (provider : String) (emailId : String) (ok : Bool)
  /-- one `await new Promise(res => setTimeout(res, ms))` -/
  | wait (ms : Int)
  deriving DecidableEq, Repr

/-- The email object handed to `sendEmail`. -/
structure Email where
  id : String
  recipient : String
  subject : String
  body : String
  deriving DecidableEq, Repr

/-- A delivery backend: a name and the behaviour of its `sendEmail` method.
`sendEmail n email = true` means that the invocation which is the `n`-th
backend invocation of the run completes without throwing. -/
structure Provider where
  name : String
  sendEmail : Nat → Email → Bool

/-- The environment of a run. -/
structure World where
  /-- the value returned by the `k`-th evaluation of `Date.now()` -/
  clock : Nat → Int
  /-- number of evaluations of `Date.now()` so far -/
  ticks : Nat
  /-- number of backend invocations so far -/
  calls : Nat
  /-- ghost trace, oldest event first -/
  trace : List Event

/-- Evaluation of `Date.now()` at a call site. -/
def World.dateNow (w : World) (site : Site) : Int × World :=
  (w.clock w.ticks,
    { w with ticks := w.ticks + 1, trace := w.trace ++ [Event.clock site (w.clock w.ticks)] })

/-- Evaluation of `await provider.sendEmail(email)`: `true` iff it does not throw. -/
def World.invoke (w : World) (p : Provider) (email : Email) : Bool × World :=
  (p.sendEmail w.calls email,
    { w with calls := w.calls + 1,
             trace := w.trace ++ [Event.send p.name email.id (p.sendEmail w.calls email)] })

/-- Evaluation of `await new Promise(res => setTimeout(res, ms))`. -/
def World.sleep (w : World) (ms : Int) : World :=
  { w with trace := w.trace ++ [Event.wait ms] }

/-! ## RateLimiter (source lines 34-48) -/

structure RateLimiter where
  limit : Int
  intervalMs : Int
  requests : List Int
  deriving DecidableEq, Repr

/-- The constructor `new RateLimiter(limit, intervalMs)`. -/
def RateLimiter.new (limit intervalMs : Int) : RateLimiter :=
  { limit := limit, intervalMs := intervalMs, requests := [] }

/-- The method `allow()`, where `now` is the value of `Date.now()`. -/
def RateLimiter.allow (r : RateLimiter) (now : Int) : Bool × RateLimiter :=
  let requests := r.requests.filter (fun t => decide (now - t < r.intervalMs))
  if (requests.length : Int) ≥ r.limit then (false, { r with requests := requests })
  else (true, { r with requests := requests ++ [now] })

/-! ## CircuitBreaker (source lines 50-80) -/

inductive BreakerState where
  | CLOSED
  | OPEN
  deriving DecidableEq, Repr

structure CircuitBreaker where
  threshold : Int
  timeout : Int
  failureCount : Nat
  state : BreakerState
  lastFailureTime : Int
  deriving DecidableEq, Repr

/-- The constructor `new CircuitBreaker(threshold, timeout)`. -/
def CircuitBreaker.new (threshold timeout : Int) : CircuitBreaker :=
  { threshold := threshold, timeout := timeout, failureCount := 0,
    state := BreakerState.CLOSED, lastFailureTime := 0 }

/-- The method `reset()`. -/
def CircuitBreaker.reset (b : CircuitBreaker) : CircuitBreaker :=
  { b with failureCount := 0, state := BreakerState.CLOSED }

/-- The method `canTry()`; `now` is the value of `Date.now()`, which the source
evaluates only on the `OPEN` branch. -/
def CircuitBreaker.canTry (b : CircuitBreaker) (now : Int) : Bool × CircuitBreaker :=
  if b.state = BreakerState.OPEN then
    if now - b.lastFailureTime > b.timeout then (true, b.reset)
    else (false, b)
  else (true, b)

/-- The method `recordFailure()`, where `now` is the value of `Date.now()`. -/
def CircuitBreaker.recordFailure (b : CircuitBreaker) (now : Int) : CircuitBreaker :=
  let b1 := { b with failureCount := b.failureCount + 1, lastFailureTime := now }
  if (b1.failureCount : Int) ≥ b1.threshold then { b1 with state := BreakerState.OPEN } else b1

/-- The call `breaker.canTry()` inside a run: the clock is read only when the
breaker is `OPEN` (source line 61). -/
def CircuitBreaker.canTryIn (b : CircuitBreaker) (w : World) : Bool × CircuitBreaker × World :=
  if b.state = BreakerState.OPEN then
    let t := w.dateNow Site.canTry
    ((b.canTry t.1).1, (b.canTry t.1).2, t.2)
  else ((b.canTry 0).1, (b.canTry 0).2, w)

/-- The call `breaker.recordFailure()` inside a run. -/
def CircuitBreaker.recordFailureIn (b : CircuitBreaker) (w : World) : CircuitBreaker × World :=
  let t := w.dateNow Site.recordFailure
  (b.recordFailure t.1, t.2)

/-! ## EmailService (source lines 82-133) -/

/-- The four results of `sendEmail`; the source returns the string `Outcome.text`. -/
inductive Outcome where
  | AlreadySent
  | RateLimited
  | Delivered (providerName : String)
  | AllBackendsFailed
  deriving DecidableEq, Repr

/-- The string returned by `sendEmail` for each outcome. -/
def Outcome.text (o : Outcome) (email : Email) : String :=
  match o with
  | Outcome.AlreadySent => "Already sent email " ++ email.id
  | Outcome.RateLimited => "Rate limit exceeded for email " ++ email.id
  | Outcome.Delivered n => "Email " ++ email.id ++ " sent successfully via " ++ n
  | Outcome.AllBackendsFailed => "Failed to send email " ++ email.id ++ " with all providers."

structure EmailService where
  providers : List Provider
  /-- the `Set` of sent ids, in insertion order -/
  sentEmails : List String
  rateLimiter : RateLimiter
  /-- the object `circuitBreakers`, keyed by provider name -/
  circuitBreakers : String → Option CircuitBreaker

/-- The assignment `circuitBreakers[name] = b` (also the in-place mutation of the
breaker object stored under `name`). -/
def setBreaker (m : String → Option CircuitBreaker) (name : String) (b : CircuitBreaker) :
    String → Option CircuitBreaker :=
  fun k => if k = name then some b else m k

/-- The constructor `new EmailService(providers)`. -/
def EmailService.new (providers : List Provider) : EmailService :=
  { providers := providers,
    sentEmails := [],
    rateLimiter := RateLimiter.new 5 10000,
    circuitBreakers :=
      providers.foldl (fun m p => setBreaker m p.name (CircuitBreaker.new 3 10000))
        (fun _ => none) }

/-- The method `Set.prototype.add` of the ledger. -/
def setAdd (l : List String) (id : String) : List String :=
  if id ∈ l then l else l ++ [id]

/-- The `for` loop of `trySend` (source lines 97-106) with `remaining = retries - i`
iterations left, acting on the breaker object of the provider. -/
def EmailService.attempts (provider : Provider) (email : Email) (delay : Int) :
    Nat → Nat → CircuitBreaker → World → Bool × CircuitBreaker × World
  | 0, _, breaker, w => (false, breaker, w)
  | remaining + 1, i, breaker, w =>
    let r := w.invoke provider email
    if r.1 then (true, breaker.reset, r.2)
    else
      let f := breaker.recordFailureIn r.2
      attempts provider email delay remaining (i + 1) f.1 (f.2.sleep (delay * 2 ^ i))

/-- The method `trySend(provider, email, retries, delay)`; `none` is the
`TypeError` thrown when no breaker is stored under `provider.name`. -/
def EmailService.trySend (s : EmailService) (provider : Provider) (email : Email)
    (retries : Nat) (delay : Int) (w : World) : Option (Bool × EmailService × World) :=
  match s.circuitBreakers provider.name with
  | none => none
  | some breaker =>
    let c := breaker.canTryIn w
    if c.1 = false then
      some (false, { s with circuitBreakers := setBreaker s.circuitBreakers provider.name c.2.1 },
        c.2.2)
    else
      let r := EmailService.attempts provider email delay retries 0 c.2.1 c.2.2
      some (r.1, { s with circuitBreakers := setBreaker s.circuitBreakers provider.name r.2.1 },
        r.2.2)

/-- Default value of the parameter `retries` of `trySend`. -/
def defaultRetries : Nat := 3

/-- Default value of the parameter `delay` of `trySend`. -/
def defaultDelay : Int := 500

/-- The `for (const provider of this.providers)` loop of `sendEmail`
(source lines 121-130) over the providers still to be visited. -/
def EmailService.dispatch (email : Email) :
    List Provider → EmailService → World → Option (Outcome × EmailService × World)
  | [], s, w => some (Outcome.AllBackendsFailed, s, w)
  | provider :: rest, s, w =>
    match s.trySend provider email defaultRetries defaultDelay w with
    | none => none
    | some (true, s1, w1) =>
      some (Outcome.Delivered provider.name,
        { s1 with sentEmails := setAdd s1.sentEmails email.id }, w1)
    | some (false, s1, w1) => dispatch email rest s1 w1

/-- The method `sendEmail(email)`. -/
def EmailService.sendEmail (s : EmailService) (email : Email) (w : World) :
    Option (Outcome × EmailService × World) :=
  if email.id ∈ s.sentEmails then some (Outcome.AlreadySent, s, w)
  else
    let t := w.dateNow Site.allow
    let a := s.rateLimiter.allow t.1
    if a.1 = false then some (Outcome.RateLimited, { s with rateLimiter := a.2 }, t.2)
    else EmailService.dispatch email s.providers { s with rateLimiter := a.2 } t.2

/-- A sequence of `sendEmail` calls, each awaited before the next starts. -/
def EmailService.sendAll :
    List Email → EmailService → World → Option (List Outcome × EmailService × World)
  | [], s, w => some ([], s, w)
  | email :: rest, s, w =>
    match s.sendEmail email w with
    | none => none
    | some (o, s1, w1) =>
      match sendAll rest s1 w1 with
      | none => none
      | some (os, s2, w2) => some (o :: os, s2, w2)

/-! ## Observations on traces -/

/-- The backend invocations of a trace: provider name, email id and outcome. -/
def sends : List Event → List (String × String × Bool)
  | [] => []
  | Event.send p i ok :: es => (p, i, ok) :: sends es
  | _ :: es => sends es

/-- The backoff waits of a trace, in order. -/
def waits : List Event → List Int
  | [] => []
  | Event.wait ms :: es => ms :: waits es
  | _ :: es => waits es

/-- The clock values read by `RateLimiter.allow` in a trace, in order. -/
def admissionTimes : List Event → List Int
  | [] => []
  | Event.clock Site.allow t :: es => t :: admissionTimes es
  | _ :: es => admissionTimes es

/-- The events a run appended to the trace of the world it started from. -/
def newEvents (before after : World) : List Event :=
  after.trace.drop before.trace.length

/-! ## Test fixtures -/

def alwaysFails (name : String) : Provider := { name := name, sendEmail := fun _ _ => false }

def alwaysSucceeds (name : String) : Provider := { name := name, sendEmail := fun _ _ => true }

/-- A world whose clock is a given function, before anything happened. -/
def World.start (clock : Nat → Int) : World :=
  { clock := clock, ticks := 0, calls := 0, trace := [] }

def mail (id : String) : Email :=
  { id := id, recipient := "user@example.com", subject := "Test Email", body := "Hello, this is a test." }

/-- The service of the test runner, with deterministic stand-ins for the two mock providers. -/
def demoService : EmailService :=
  EmailService.new [alwaysFails "ProviderA", alwaysSucceeds "ProviderB"]

/-- A world whose clock advances by one second per reading. -/
def demoWorld : World := World.start (fun k => 1000 * (k : Int))

/-- The service reached by a run, or the given one when the run threw. -/
def serviceAfter {α : Type} (r : Option (α × EmailService × World)) (s : EmailService) :
    EmailService :=
  match r with
  | some x => x.2.1
  | none => s

/-- The world reached by a run, or the given one when the run threw. -/
def worldAfter {α : Type} (r : Option (α × EmailService × World)) (w : World) : World :=
  match r with
  | some x => x.2.2
  | none => w

/-! ## Runs of the component methods -/

/-- Consecutive `allow()` calls on one limiter, made at the given clock values. -/
def RateLimiter.allowAll : List Int → RateLimiter → List Bool × RateLimiter
  | [], r => ([], r)
  | t :: ts, r =>
    ((r.allow t).1 :: (allowAll ts (r.allow t).2).1, (allowAll ts (r.allow t).2).2)

/-- The limiter states the class can be in: built by the constructor, then changed
only by `allow()` calls, made at arbitrary clock values. -/
inductive RateLimiter.Reachable : RateLimiter → Prop
  | fresh (limit intervalMs : Int) : Reachable (RateLimiter.new limit intervalMs)
  | allow {r : RateLimiter} (now : Int) : Reachable r → Reachable (r.allow now).2

/-- Consecutive `recordFailure()` calls on one breaker, made at the given clock values. -/
def CircuitBreaker.recordFailures : List Int → CircuitBreaker → CircuitBreaker
  | [], b => b
  | t :: ts, b => recordFailures ts (b.recordFailure t)

/-- Consecutive `canTry()` calls on one breaker, made at the given clock values. -/
def CircuitBreaker.canTryAll : List Int → CircuitBreaker → List Bool × CircuitBreaker
  | [], b => ([], b)
  | t :: ts, b =>
    ((b.canTry t).1 :: (canTryAll ts (b.canTry t).2).1, (canTryAll ts (b.canTry t).2).2)

/-- The events of `k` consecutive failed attempts of `trySend`, the first of them
with loop index `i`, made when the clock had been read `tick` times. -/
def failedAttempts (name id : String) (delay : Int) (clock : Nat → Int) :
    Nat → Nat → Nat → List Event
  | 0, _, _ => []
  | k + 1, i, tick =>
    Event.send name id false :: Event.clock Site.recordFailure (clock tick) ::
      Event.wait (delay * 2 ^ i) :: failedAttempts name id delay clock k (i + 1) (tick + 1)

/-- The event that closes a successful `trySend`, or nothing. -/
def successEvent (name id : String) (ok : Bool) : List Event :=
  if ok then [Event.send name id true] else []

/-- The clock reading made by `canTry()` when the breaker is `OPEN`. -/
def gateEvents (b : CircuitBreaker) (w : World) : List Event :=
  if b.state = BreakerState.OPEN then [Event.clock Site.canTry (w.clock w.ticks)] else []

/-- The waits that precede the first backend invocation of a trace; `none` when
the trace holds no backend invocation. -/
def waitsUntilSend : List Event → Option (List Int)
  | [] => none
  | Event.send _ _ _ :: _ => some []
  | Event.wait ms :: es => (waitsUntilSend es).map (fun l => ms :: l)
  | Event.clock _ _ :: es => waitsUntilSend es

/-- The part of a trace that follows its backend invocation number `k` (counted from 0). -/
def afterSend : Nat → List Event → List Event
  | _, [] => []
  | 0, Event.send _ _ _ :: es => es
  | k + 1, Event.send _ _ _ :: es => afterSend k es
  | k, Event.wait _ :: es => afterSend k es
  | k, Event.clock _ _ :: es => afterSend k es

/-- The waits between the backend invocations number `k` and `k + 1` of a trace
(counted from 0); `none` when the trace has no invocation number `k + 1`. -/
def waitBetween (k : Nat) (evs : List Event) : Option (List Int) :=
  waitsUntilSend (afterSend k evs)

/-- Visiting the providers of a list in order with every `trySend` returning `false`:
the service and world reached, or `none` when some `trySend` did not return `false`. -/
def EmailService.failAll (email : Email) :
    List Provider → EmailService → World → Option (EmailService × World)
  | [], s, w => some (s, w)
  | provider :: rest, s, w =>
    match s.trySend provider email defaultRetries defaultDelay w with
    | some (false, s1, w1) => failAll email rest s1 w1
    | _ => none

/-- Every provider of the service has a breaker stored under its name, as the
constructor arranges; `trySend` then never meets an undefined breaker. -/
def EmailService.Registered (s : EmailService) : Prop :=
  ∀ p ∈ s.providers, (s.circuitBreakers p.name).isSome = true

/-- A world whose clock advances by one millisecond per reading. -/
def fastWorld : World := World.start (fun k => (k : Int))

/-- Six messages with pairwise distinct ids. -/
def sixMails : List Email :=
  [mail "email-1", mail "email-2", mail "email-3", mail "email-4", mail "email-5", mail "email-6"]

/-- A service whose two providers both fail on every invocation. -/
def failingService : EmailService :=
  EmailService.new [alwaysFails "ProviderA", alwaysFails "ProviderB"]

/-- The breaker states the class can be in: built by the constructor, then changed
only by `canTry()`, `recordFailure()` and `reset()` calls, made at arbitrary clock values. -/
inductive CircuitBreaker.Reachable : CircuitBreaker → Prop
  | fresh (threshold timeout : Int) : Reachable (CircuitBreaker.new threshold timeout)
  | canTry {b : CircuitBreaker} (now : Int) : Reachable b → Reachable (b.canTry now).2
  | recordFailure {b : CircuitBreaker} (now : Int) : Reachable b → Reachable (b.recordFailure now)
  | reset {b : CircuitBreaker} : Reachable b → Reachable b.reset

/-- The shape of a breaker of the service between two `sendEmail` calls: threshold 3, and
either `CLOSED` with no recorded failure or `OPEN` with exactly three. -/
def CircuitBreaker.Settled (b : CircuitBreaker) : Prop :=
  b.threshold = 3 ∧
    ((b.state = BreakerState.CLOSED ∧ b.failureCount = 0) ∨
      (b.state = BreakerState.OPEN ∧ b.failureCount = 3))

/-- Every breaker stored in the service is settled. -/
def EmailService.Settled (s : EmailService) : Prop :=
  ∀ name b, s.circuitBreakers name = some b → b.Settled

/-! ## Overlapping calls

`sendEmail` and `trySend` are `async` functions. A call runs without interruption up to
its next `await`, where it is parked; other calls started in the meantime run between two
such segments. The definitions below are the segments of one call, cut at the three
`await`s of the source (lines 99, 104 and 122). -/

/-- A `sendEmail` call parked at one of its `await`s. -/
inductive Suspended where
  /-- at `await provider.sendEmail(email)` (line 99) in iteration `i` of the loop of
  `trySend`, with `remaining` iterations after this one; `ok` iff the promise fulfils -/
  | send (email : Email) (provider : Provider) (rest : List Provider) (i remaining : Nat)
      (ok : Bool)
  /-- at the backoff wait (line 104) of iteration `i` -/
  | timer (email : Email) (provider : Provider) (rest : List Provider) (i remaining : Nat)
  /-- at `await this.trySend(provider, email)` (line 122), `trySend` having returned `result` -/
  | tried (email : Email) (provider : Provider) (rest : List Provider) (result : Bool)

/-- How far a `sendEmail` call has come. -/
inductive Progress where
  /-- the call has returned -/
  | done (o : Outcome)
  /-- the call has thrown the `TypeError` of a missing breaker -/
  | thrown
  /-- the call is parked -/
  | suspended (k : Suspended)

/-- The outcome of a call that has returned. -/
def Progress.outcome : Progress → Option Outcome
  | Progress.done o => some o
  | _ => none

/-- The loop test of `trySend` (line 97) at index `i`, with `remaining = retries - i`: either
the loop is over and `trySend` returns `false`, or the provider is invoked and the call parks
on its promise. -/
def loopHead (email : Email) (provider : Provider) (rest : List Provider) (i : Nat) :
    Nat → EmailService → World → Progress × EmailService × World
  | 0, s, w => (Progress.suspended (Suspended.tried email provider rest false), s, w)
  | remaining + 1, s, w =>
    let r := w.invoke provider email
    (Progress.suspended (Suspended.send email provider rest i remaining r.1), s, r.2)

/-- The head of the provider loop of `sendEmail` (line 121): the call of `trySend` on the
next provider, up to its first `await`. -/
def visit (email : Email) : List Provider → EmailService → World →
    Progress × EmailService × World
  | [], s, w => (Progress.done Outcome.AllBackendsFailed, s, w)
  | provider :: rest, s, w =>
    match s.circuitBreakers provider.name with
    | none => (Progress.thrown, s, w)
    | some breaker =>
      let c := breaker.canTryIn w
      let s1 := { s with circuitBreakers := setBreaker s.circuitBreakers provider.name c.2.1 }
      if c.1 = false then
        (Progress.suspended (Suspended.tried email provider rest false), s1, c.2.2)
      else loopHead email provider rest 0 defaultRetries s1 c.2.2

/-- The first segment of a `sendEmail` call, run when the call is made. -/
def start (email : Email) (s : EmailService) (w : World) : Progress × EmailService × World :=
  if email.id ∈ s.sentEmails then (Progress.done Outcome.AlreadySent, s, w)
  else
    let t := w.dateNow Site.allow
    let a := s.rateLimiter.allow t.1
    if a.1 = false then (Progress.done Outcome.RateLimited, { s with rateLimiter := a.2 }, t.2)
    else visit email s.providers { s with rateLimiter := a.2 } t.2

/-- The segment that runs when a parked call is resumed. -/
def resume (k : Suspended) (s : EmailService) (w : World) : Progress × EmailService × World :=
  match k with
  | Suspended.send email provider rest i remaining ok =>
    match s.circuitBreakers provider.name with
    | none => (Progress.thrown, s, w)
    | some breaker =>
      if ok then
        (Progress.suspended (Suspended.tried email provider rest true),
          { s with circuitBreakers := setBreaker s.circuitBreakers provider.name breaker.reset },
          w)
      else
        let f := breaker.recordFailureIn w
        (Progress.suspended (Suspended.timer email provider rest i remaining),
          { s with circuitBreakers := setBreaker s.circuitBreakers provider.name f.1 },
          f.2.sleep (defaultDelay * 2 ^ i))
  | Suspended.timer email provider rest i remaining =>
    loopHead email provider rest (i + 1) remaining s w
  | Suspended.tried email provider _ true =>
    (Progress.done (Outcome.Delivered provider.name),
      { s with sentEmails := setAdd s.sentEmails email.id }, w)
  | Suspended.tried email _ rest false => visit email rest s w

/-- One call on its own: `Steps x y` when resuming the call again and again leads from `x`
to `y`. -/
inductive Steps : Progress × EmailService × World → Progress × EmailService × World → Prop
  | refl (x : Progress × EmailService × World) : Steps x x
  | step (k : Suspended) (s : EmailService) (w : World) (y : Progress × EmailService × World) :
      Steps (resume k s w) y → Steps (Progress.suspended k, s, w) y

/-- A service with the calls made on it so far, in call order. -/
structure System where
  service : EmailService
  world : World
  tasks : List Progress

/-- A freshly constructed service on which no call has been made. -/
def System.fresh (providers : List Provider) (w : World) : System :=
  { service := EmailService.new providers, world := w, tasks := [] }

/-- A `sendEmail` call is made and not awaited: its first segment runs at once. -/
def System.call (sys : System) (email : Email) : System :=
  let r := start email sys.service sys.world
  { service := r.2.1, world := r.2.2, tasks := sys.tasks ++ [r.1] }

/-- The calls of a list are made one right after the other, none of them awaited. -/
def System.callAll (sys : System) (emails : List Email) : System :=
  emails.foldl System.call sys

/-- The parked call number `i` is resumed and runs its next segment. -/
def System.resumeTask (sys : System) (i : Nat) : System :=
  match sys.tasks.get? i with
  | some (Progress.suspended k) =>
    let r := resume k sys.service sys.world
    { service := r.2.1, world := r.2.2, tasks := sys.tasks.set i r.1 }
  | _ => sys

/-- An interleaving: the parked calls are resumed in the order of the schedule. -/
def System.run (sys : System) (schedule : List Nat) : System :=
  schedule.foldl System.resumeTask sys

/-- The outcomes of the calls, in call order; `none` for a call that has not returned. -/
def System.outcomes (sys : System) : List (Option Outcome) :=
  sys.tasks.map Progress.outcome

/-- A world whose clock stands still, as for calls made within the same millisecond. -/
def frozenWorld : World := World.start (fun _ => 0)

/-- A hundred calls for the same message on a service whose only provider always succeeds,
all started before any of them is resumed, then resumed in turn until they have returned. -/
def hundredOverlapping : System :=
  ((System.fresh [alwaysSucceeds "ProviderB"] frozenWorld).callAll
      (List.replicate 100 (mail "m1"))).run [0, 1, 2, 3, 4, 0, 1, 2, 3, 4]

/-! ## Frame lemmas and the ledger -/

theorem trySend_frame {s : EmailService} {p : Provider} {m : Email} {r : Nat} {d : Int}
    {w : World} {ok : Bool} {s' : EmailService} {w' : World}
    (h : s.trySend p m r d w = some (ok, s', w')) :
    s'.providers = s.providers ∧ s'.sentEmails = s.sentEmails ∧
      s'.rateLimiter = s.rateLimiter := by
  unfold EmailService.trySend at h
  split at h
  · cases h
  · dsimp only at h
    split at h <;>
      (simp only [Option.some.injEq, Prod.mk.injEq] at h
       obtain ⟨-, rfl, -⟩ := h
       exact ⟨rfl, rfl, rfl⟩)

theorem mem_setAdd (l : List String) (id x : String) :
    x ∈ setAdd l id ↔ x ∈ l ∨ x = id := by
  unfold setAdd
  split
  · constructor
    · exact Or.inl
    · rintro (h | rfl)
      · exact h
      · assumption
  · simp

theorem dispatch_frame {m : Email} {ps : List Provider} {s : EmailService} {w : World}
    {o : Outcome} {s' : EmailService} {w' : World}
    (h : EmailService.dispatch m ps s w = some (o, s', w')) :
    s'.providers = s.providers ∧ s'.rateLimiter = s.rateLimiter ∧
      ((o = Outcome.AllBackendsFailed ∧ s'.sentEmails = s.sentEmails) ∨
        (∃ n, o = Outcome.Delivered n ∧ s'.sentEmails = setAdd s.sentEmails m.id)) := by
  induction ps generalizing s w with
  | nil =>
    simp only [EmailService.dispatch, Option.some.injEq, Prod.mk.injEq] at h
    obtain ⟨rfl, rfl, -⟩ := h
    exact ⟨rfl, rfl, Or.inl ⟨rfl, rfl⟩⟩
  | cons p ps ih =>
    unfold EmailService.dispatch at h
    split at h
    · cases h
    · rename_i s1 w1 ht
      obtain ⟨hp, hs, hr⟩ := trySend_frame ht
      simp only [Option.some.injEq, Prod.mk.injEq] at h
      obtain ⟨rfl, rfl, -⟩ := h
      exact ⟨hp, hr, Or.inr ⟨_, rfl, by simp [hs]⟩⟩
    · rename_i s1 w1 ht
      obtain ⟨hp, hs, hr⟩ := trySend_frame ht
      obtain ⟨hp', hr', h'⟩ := ih h
      rw [hp, hs, hr] at *
      exact ⟨hp', hr', h'⟩

theorem sendEmail_ledger {s : EmailService} {m : Email} {w : World}
    {o : Outcome} {s' : EmailService} {w' : World}
    (h : s.sendEmail m w = some (o, s', w')) :
    s'.providers = s.providers ∧
      ((∃ n, o = Outcome.Delivered n ∧ s'.sentEmails = setAdd s.sentEmails m.id) ∨
        ((∀ n, o ≠ Outcome.Delivered n) ∧ s'.sentEmails = s.sentEmails)) := by
  unfold EmailService.sendEmail at h
  split at h
  · simp only [Option.some.injEq, Prod.mk.injEq] at h
    obtain ⟨rfl, rfl, -⟩ := h
    exact ⟨rfl, Or.inr ⟨by simp, rfl⟩⟩
  · dsimp only at h
    split at h
    · simp only [Option.some.injEq, Prod.mk.injEq] at h
      obtain ⟨rfl, rfl, -⟩ := h
      exact ⟨rfl, Or.inr ⟨by simp, rfl⟩⟩
    · obtain ⟨hp, -, h'⟩ := dispatch_frame h
      refine ⟨hp, ?_⟩
      rcases h' with ⟨rfl, hs⟩ | ⟨n, rfl, hs⟩
      · exact Or.inr ⟨by simp, hs⟩
      · exact Or.inl ⟨n, rfl, hs⟩

theorem sendEmail_ledger_mono {s : EmailService} {m : Email} {w : World}
    {o : Outcome} {s' : EmailService} {w' : World}
    (h : s.sendEmail m w = some (o, s', w')) (x : String) (hx : x ∈ s.sentEmails) :
    x ∈ s'.sentEmails := by
  rcases (sendEmail_ledger h).2 with ⟨n, -, hs⟩ | ⟨-, hs⟩
  · rw [hs, mem_setAdd]; exact Or.inl hx
  · rw [hs]; exact hx

theorem sendAll_ledger_mono {ms : List Email} {s : EmailService} {w : World}
    {os : List Outcome} {s' : EmailService} {w' : World}
    (h : s.sendAll ms w = some (os, s', w')) (x : String) (hx : x ∈ s.sentEmails) :
    x ∈ s'.sentEmails := by
  induction ms generalizing s w os with
  | nil =>
    simp only [EmailService.sendAll, Option.some.injEq, Prod.mk.injEq] at h
    obtain ⟨-, rfl, -⟩ := h
    exact hx
  | cons m ms ih =>
    unfold EmailService.sendAll at h
    split at h
    · cases h
    · rename_i o s1 w1 h1
      split at h
      · cases h
      · rename_i os2 s2 w2 h2
        simp only [Option.some.injEq, Prod.mk.injEq] at h
        obtain ⟨-, rfl, rfl⟩ := h
        exact ih h2 (sendEmail_ledger_mono h1 x hx)

theorem sendEmail_of_mem {s : EmailService} {m : Email} (w : World)
    (h : m.id ∈ s.sentEmails) : s.sendEmail m w = some (Outcome.AlreadySent, s, w) := by
  unfold EmailService.sendEmail
  rw [if_pos h]

/-! ## The rate limiter -/

theorem allow_limit (r : RateLimiter) (now : Int) :
    (r.allow now).2.limit = r.limit ∧ (r.allow now).2.intervalMs = r.intervalMs := by
  unfold RateLimiter.allow
  dsimp only
  split <;> exact ⟨rfl, rfl⟩

theorem allow_of_fresh (r : RateLimiter) (now : Int)
    (hfresh : ∀ x ∈ r.requests, now - x < r.intervalMs) :
    r.allow now =
      if (r.requests.length : Int) ≥ r.limit then (false, r)
      else (true, { r with requests := r.requests ++ [now] }) := by
  have hf : r.requests.filter (fun t => decide (now - t < r.intervalMs)) = r.requests := by
    rw [List.filter_eq_self]
    intro x hx
    simpa using hfresh x hx
  unfold RateLimiter.allow
  dsimp only
  rw [hf]

theorem allowAll_rejects (ts : List Int) (r : RateLimiter)
    (hlen : (r.requests.length : Int) ≤ r.limit)
    (hmore : r.limit < (r.requests.length : Int) + (ts.length : Int))
    (hold : ∀ x ∈ r.requests, ∀ t ∈ ts, t - x < r.intervalMs)
    (hpair : ts.Pairwise (fun a b => b - a < r.intervalMs)) :
    false ∈ (r.allowAll ts).1 := by
  induction ts generalizing r with
  | nil => simp at hmore; omega
  | cons t ts ih =>
    unfold RateLimiter.allowAll
    dsimp only
    rw [allow_of_fresh r t (fun x hx => hold x hx t (List.mem_cons_self _ _))]
    by_cases hfull : (r.requests.length : Int) ≥ r.limit
    · rw [if_pos hfull]; exact List.mem_cons_self _ _
    · rw [if_neg hfull]
      apply List.mem_cons_of_mem
      rw [List.pairwise_cons] at hpair
      apply ih
      · simp only [List.length_append, List.length_singleton]; push_cast; omega
      · simp only [List.length_append, List.length_singleton, List.length_cons] at hmore ⊢
        push_cast at hmore ⊢; omega
      · intro x hx u hu
        rw [List.mem_append, List.mem_singleton] at hx
        rcases hx with hx | rfl
        · exact hold x hx u (List.mem_cons_of_mem _ hu)
        · exact hpair.1 u hu
      · exact hpair.2

theorem window_pairwise (W t0 : Int) (ts : List Int)
    (hs : (t0 :: ts).Sorted (· ≤ ·)) (hw : ∀ t ∈ ts, t - t0 < W) (hW : 0 < W) :
    (t0 :: ts).Pairwise (fun a b => b - a < W) := by
  have hall : ∀ t ∈ t0 :: ts, t0 ≤ t ∧ t - t0 < W := by
    intro t ht
    rcases List.mem_cons.1 ht with rfl | ht
    · exact ⟨le_refl _, by omega⟩
    · exact ⟨List.rel_of_sorted_cons hs t ht, hw t ht⟩
  have hs' : (t0 :: ts).Pairwise (· ≤ ·) := hs
  refine (List.Pairwise.and_mem.1 hs').imp ?_
  rintro a b ⟨ha, hb, hab⟩
  have := hall a ha
  have := hall b hb
  omega

theorem reachable_bound {r : RateLimiter} (h : r.Reachable) :
    r.requests = [] ∨ (r.requests.length : Int) ≤ r.limit := by
  induction h with
  | fresh limit intervalMs => exact Or.inl rfl
  | @allow r now _ ih =>
    have hle := List.length_filter_le (fun t => decide (now - t < r.intervalMs)) r.requests
    unfold RateLimiter.allow
    dsimp only
    split
    · rcases ih with h0 | hb
      · left; simp [h0]
      · right; dsimp only; omega
    · right
      simp only [List.length_append, List.length_singleton]
      push_cast
      omega

theorem allow_false_unchanged {r : RateLimiter} (hb : r.requests = [] ∨ (r.requests.length : Int) ≤ r.limit)
    (now : Int) (hrej : (r.allow now).1 = false) : (r.allow now).2 = r := by
  have hle := List.length_filter_le (fun t => decide (now - t < r.intervalMs)) r.requests
  unfold RateLimiter.allow at hrej ⊢
  dsimp only at hrej ⊢
  split at hrej
  · rename_i hfull
    rw [if_pos hfull]
    dsimp only
    have hf : r.requests.filter (fun t => decide (now - t < r.intervalMs)) = r.requests := by
      rcases hb with h0 | hb
      · simp [h0]
      · have hlen : (r.requests.filter (fun t => decide (now - t < r.intervalMs))).length
            = r.requests.length := by omega
        exact List.filter_eq_self.2 (List.filter_length_eq_length.1 hlen)
    rw [hf]
  · simp at hrej

/-! ## The circuit breaker -/

theorem recordFailure_fields (b : CircuitBreaker) (now : Int) :
    (b.recordFailure now).threshold = b.threshold ∧ (b.recordFailure now).timeout = b.timeout ∧
      (b.recordFailure now).failureCount = b.failureCount + 1 ∧
      (b.recordFailure now).lastFailureTime = now := by
  unfold CircuitBreaker.recordFailure
  dsimp only
  split <;> exact ⟨rfl, rfl, rfl, rfl⟩

theorem recordFailure_opens (b : CircuitBreaker) (now : Int)
    (h : b.threshold ≤ (b.failureCount : Int) + 1) :
    (b.recordFailure now).state = BreakerState.OPEN := by
  unfold CircuitBreaker.recordFailure
  dsimp only
  rw [if_pos (by push_cast; omega)]

theorem recordFailures_append (ts : List Int) (t : Int) (b : CircuitBreaker) :
    b.recordFailures (ts ++ [t]) = (b.recordFailures ts).recordFailure t := by
  induction ts generalizing b with
  | nil => rfl
  | cons u ts ih => exact ih (b.recordFailure u)

theorem recordFailures_fields (ts : List Int) (b : CircuitBreaker) :
    (b.recordFailures ts).threshold = b.threshold ∧ (b.recordFailures ts).timeout = b.timeout ∧
      (b.recordFailures ts).failureCount = b.failureCount + ts.length := by
  induction ts generalizing b with
  | nil => exact ⟨rfl, rfl, rfl⟩
  | cons u ts ih =>
    obtain ⟨h1, h2, h3⟩ := ih (b.recordFailure u)
    obtain ⟨g1, g2, g3, -⟩ := recordFailure_fields b u
    simp only [CircuitBreaker.recordFailures, List.length_cons]
    exact ⟨h1.trans g1, h2.trans g2, by omega⟩

theorem canTryAll_open (us : List Int) (b : CircuitBreaker) (hopen : b.state = BreakerState.OPEN)
    (hearly : ∀ u ∈ us, u - b.lastFailureTime ≤ b.timeout) :
    b.canTryAll us = (List.replicate us.length false, b) := by
  induction us with
  | nil => rfl
  | cons u us ih =>
    have hu : b.canTry u = (false, b) := by
      unfold CircuitBreaker.canTry
      rw [if_pos hopen, if_neg (by have := hearly u (List.mem_cons_self _ _); omega)]
    unfold CircuitBreaker.canTryAll
    rw [hu]
    dsimp only
    rw [ih (fun v hv => hearly v (List.mem_cons_of_mem _ hv))]
    rfl

/-! ## Traces of the retry loop -/

theorem sends_append (a b : List Event) : sends (a ++ b) = sends a ++ sends b := by
  induction a with
  | nil => rfl
  | cons e a ih => cases e <;> simp [sends, ih]

theorem waits_append (a b : List Event) : waits (a ++ b) = waits a ++ waits b := by
  induction a with
  | nil => rfl
  | cons e a ih => cases e <;> simp [waits, ih]

theorem admissionTimes_append (a b : List Event) :
    admissionTimes (a ++ b) = admissionTimes a ++ admissionTimes b := by
  induction a with
  | nil => rfl
  | cons e a ih =>
    cases e with
    | clock site t => cases site <;> simp [admissionTimes, ih]
    | send p i ok => simp [admissionTimes, ih]
    | wait ms => simp [admissionTimes, ih]

theorem newEvents_of_trace {w w' : World} {evs : List Event} (h : w'.trace = w.trace ++ evs) :
    newEvents w w' = evs := by
  unfold newEvents
  rw [h, List.drop_left]

theorem sends_failedAttempts (name id : String) (d : Int) (clock : Nat → Int) (k i tick : Nat) :
    sends (failedAttempts name id d clock k i tick) = List.replicate k (name, id, false) := by
  induction k generalizing i tick with
  | zero => rfl
  | succ k ih => simp [failedAttempts, sends, ih, List.replicate_succ]

theorem waits_failedAttempts (name id : String) (d : Int) (clock : Nat → Int) (k i tick : Nat) :
    waits (failedAttempts name id d clock k i tick)
      = (List.range k).map (fun j => d * 2 ^ (i + j)) := by
  induction k generalizing i tick with
  | zero => rfl
  | succ k ih =>
    simp only [failedAttempts, waits, ih, List.range_succ_eq_map, List.map_cons, List.map_map]
    simp only [Nat.add_zero, List.cons.injEq, true_and]
    apply List.map_congr_left
    intro j _
    simp only [Function.comp]
    congr 2
    omega

theorem admissionTimes_failedAttempts (name id : String) (d : Int) (clock : Nat → Int)
    (k i tick : Nat) : admissionTimes (failedAttempts name id d clock k i tick) = [] := by
  induction k generalizing i tick with
  | zero => rfl
  | succ k ih => simp [failedAttempts, admissionTimes, ih]

/-- The run of the retry loop, event by event. -/
theorem attempts_run (p : Provider) (m : Email) (d : Int) (rem i : Nat) (b : CircuitBreaker)
    (w : World) :
    ∃ k, k ≤ rem ∧
      (EmailService.attempts p m d rem i b w).2.2.trace
        = w.trace ++ (failedAttempts p.name m.id d w.clock k i w.ticks ++
            successEvent p.name m.id (EmailService.attempts p m d rem i b w).1) ∧
      (EmailService.attempts p m d rem i b w).2.2.clock = w.clock ∧
      (EmailService.attempts p m d rem i b w).2.2.ticks = w.ticks + k ∧
      ((EmailService.attempts p m d rem i b w).1 = false → k = rem) ∧
      ((EmailService.attempts p m d rem i b w).1 = true → k < rem) := by
  induction rem generalizing i b w with
  | zero =>
    exact ⟨0, le_refl _, by simp [EmailService.attempts, failedAttempts, successEvent],
      rfl, rfl, fun _ => rfl, by simp [EmailService.attempts]⟩
  | succ rem ih =>
    unfold EmailService.attempts
    dsimp only
    by_cases hok : (w.invoke p m).1 = true
    · rw [if_pos hok]
      refine ⟨0, Nat.zero_le _, ?_, rfl, rfl, by simp, by simp⟩
      simp only [World.invoke, failedAttempts, successEvent, if_true, List.nil_append]
      simp only [World.invoke] at hok
      rw [hok]
    · rw [if_neg hok]
      obtain ⟨k, hk, htr, hcl, hti, hf, ht⟩ := ih (i + 1)
        (b.recordFailureIn (w.invoke p m).2).1
        ((b.recordFailureIn (w.invoke p m).2).2.sleep (d * 2 ^ i))
      refine ⟨k + 1, Nat.succ_le_succ hk, ?_, ?_, ?_, ?_, ?_⟩
      · rw [htr]
        simp only [Bool.not_eq_true] at hok
        simp only [World.invoke] at hok
        simp only [World.sleep, CircuitBreaker.recordFailureIn, World.dateNow, World.invoke,
          failedAttempts, hok, List.append_assoc, List.cons_append, List.nil_append]
      · rw [hcl]; rfl
      · rw [hti]; simp only [World.sleep, CircuitBreaker.recordFailureIn, World.dateNow,
          World.invoke]; omega
      · intro h; rw [hf h]
      · intro h; exact Nat.succ_lt_succ (ht h)

theorem canTryIn_run (b : CircuitBreaker) (w : World) :
    (b.canTryIn w).2.2.trace = w.trace ++ gateEvents b w ∧ (b.canTryIn w).2.2.clock = w.clock ∧
      (b.canTryIn w).2.2.calls = w.calls := by
  unfold CircuitBreaker.canTryIn gateEvents
  split
  · exact ⟨rfl, rfl, rfl⟩
  · exact ⟨by simp, rfl, rfl⟩

/-- The run of `trySend`, event by event: either the breaker refuses and nothing but
its clock reading happens, or `k` failed attempts are followed by the successful one, if any. -/
theorem trySend_run {s : EmailService} {p : Provider} {m : Email} {r : Nat} {d : Int}
    {w : World} {ok : Bool} {s' : EmailService} {w' : World}
    (h : s.trySend p m r d w = some (ok, s', w')) :
    ∃ b, s.circuitBreakers p.name = some b ∧ w'.clock = w.clock ∧
      (((b.canTryIn w).1 = false ∧ ok = false ∧ w'.trace = w.trace ++ gateEvents b w) ∨
        ((b.canTryIn w).1 = true ∧ ∃ k, k ≤ r ∧ (ok = false → k = r) ∧ (ok = true → k < r) ∧
          w'.trace = w.trace ++ (gateEvents b w ++
            (failedAttempts p.name m.id d w.clock k 0 (b.canTryIn w).2.2.ticks ++
              successEvent p.name m.id ok)))) := by
  unfold EmailService.trySend at h
  split at h
  · cases h
  · rename_i b hb
    dsimp only at h
    obtain ⟨hg, hc, -⟩ := canTryIn_run b w
    refine ⟨b, hb, ?_⟩
    split at h
    · rename_i hrej
      simp only [Option.some.injEq, Prod.mk.injEq] at h
      obtain ⟨rfl, -, rfl⟩ := h
      exact ⟨hc, Or.inl ⟨hrej, rfl, hg⟩⟩
    · rename_i hadm
      simp only [Bool.not_eq_false] at hadm
      simp only [Option.some.injEq, Prod.mk.injEq] at h
      obtain ⟨rfl, -, rfl⟩ := h
      obtain ⟨k, hk, htr, hcl, -, hf, ht⟩ :=
        attempts_run p m d r 0 (b.canTryIn w).2.1 (b.canTryIn w).2.2
      refine ⟨hcl.trans hc, Or.inr ⟨hadm, k, hk, hf, ht, ?_⟩⟩
      rw [htr, hg, hc, List.append_assoc]

theorem afterSend_gate (b : CircuitBreaker) (w : World) (j : Nat) (evs : List Event) :
    afterSend j (gateEvents b w ++ evs) = afterSend j evs := by
  unfold gateEvents
  split
  · cases j <;> simp [afterSend]
  · rfl

theorem failedAttempts_succ_append (name id : String) (d : Int) (clock : Nat → Int)
    (k i tick : Nat) (rest : List Event) :
    failedAttempts name id d clock (k + 1) i tick ++ rest
      = Event.send name id false :: Event.clock Site.recordFailure (clock tick) ::
          Event.wait (d * 2 ^ i) :: (failedAttempts name id d clock k (i + 1) (tick + 1) ++ rest) :=
  rfl

theorem afterSend_clock (j : Nat) (site : Site) (t : Int) (es : List Event) :
    afterSend j (Event.clock site t :: es) = afterSend j es := by
  cases j <;> rfl

theorem afterSend_wait (j : Nat) (ms : Int) (es : List Event) :
    afterSend j (Event.wait ms :: es) = afterSend j es := by
  cases j <;> rfl

theorem waitsUntilSend_attempts (name id : String) (d : Int) (clock : Nat → Int) (ok : Bool)
    (k i tick : Nat) :
    waitsUntilSend (failedAttempts name id d clock k i tick ++ successEvent name id ok)
      = if 0 < k + (if ok then 1 else 0) then some [] else none := by
  cases k with
  | zero => cases ok <;> simp [failedAttempts, successEvent, waitsUntilSend]
  | succ k => simp [failedAttempts_succ_append, waitsUntilSend]

theorem waitBetween_attempts (name id : String) (d : Int) (clock : Nat → Int) (ok : Bool)
    (k i tick j : Nat) :
    waitBetween j (failedAttempts name id d clock k i tick ++ successEvent name id ok)
      = if j + 1 < k + (if ok then 1 else 0) then some [d * 2 ^ (i + j)] else none := by
  induction k generalizing i tick j with
  | zero =>
    cases ok <;> cases j <;> simp [failedAttempts, successEvent, waitBetween, afterSend,
      waitsUntilSend]
  | succ k ih =>
    rw [failedAttempts_succ_append]
    cases j with
    | zero =>
      have hw : waitBetween 0 (Event.send name id false ::
          Event.clock Site.recordFailure (clock tick) :: Event.wait (d * 2 ^ i) ::
            (failedAttempts name id d clock k (i + 1) (tick + 1) ++ successEvent name id ok))
          = (waitsUntilSend (failedAttempts name id d clock k (i + 1) (tick + 1) ++
              successEvent name id ok)).map (fun l => d * 2 ^ i :: l) := rfl
      rw [hw, waitsUntilSend_attempts]
      by_cases hk : 0 < k + (if ok then 1 else 0)
      · rw [if_pos hk, if_pos (by omega)]; simp
      · rw [if_neg hk, if_neg (by omega)]; simp
    | succ j =>
      have hw : waitBetween (j + 1) (Event.send name id false ::
          Event.clock Site.recordFailure (clock tick) :: Event.wait (d * 2 ^ i) ::
            (failedAttempts name id d clock k (i + 1) (tick + 1) ++ successEvent name id ok))
          = waitBetween j (failedAttempts name id d clock k (i + 1) (tick + 1) ++
              successEvent name id ok) := by
        unfold waitBetween
        rw [show afterSend (j + 1) (Event.send name id false ::
          Event.clock Site.recordFailure (clock tick) :: Event.wait (d * 2 ^ i) ::
            (failedAttempts name id d clock k (i + 1) (tick + 1) ++ successEvent name id ok))
          = afterSend j (Event.clock Site.recordFailure (clock tick) :: Event.wait (d * 2 ^ i) ::
            (failedAttempts name id d clock k (i + 1) (tick + 1) ++ successEvent name id ok))
          from rfl, afterSend_clock, afterSend_wait]
      rw [hw, ih]
      by_cases hk : j + 1 < k + (if ok then 1 else 0)
      · rw [if_pos hk, if_pos (by omega)]
        congr 4
        omega
      · rw [if_neg hk, if_neg (by omega)]

theorem sends_gate (b : CircuitBreaker) (w : World) : sends (gateEvents b w) = [] := by
  unfold gateEvents; split <;> rfl

theorem waits_gate (b : CircuitBreaker) (w : World) : waits (gateEvents b w) = [] := by
  unfold gateEvents; split <;> rfl

theorem admissionTimes_gate (b : CircuitBreaker) (w : World) :
    admissionTimes (gateEvents b w) = [] := by
  unfold gateEvents; split <;> rfl

theorem sends_successEvent (name id : String) (ok : Bool) :
    sends (successEvent name id ok) = if ok then [(name, id, true)] else [] := by
  cases ok <;> rfl

theorem waits_successEvent (name id : String) (ok : Bool) :
    waits (successEvent name id ok) = [] := by
  cases ok <;> rfl

theorem admissionTimes_successEvent (name id : String) (ok : Bool) :
    admissionTimes (successEvent name id ok) = [] := by
  cases ok <;> rfl

/-! ## The provider loop -/

theorem mem_sends_of_getLast {evs : List Event} {n i : String} {ok : Bool}
    (h : evs.getLast? = some (Event.send n i ok)) : (n, i, ok) ∈ sends evs := by
  obtain ⟨init, rfl⟩ : ∃ init, evs = init ++ [Event.send n i ok] := by
    rcases List.eq_nil_or_concat evs with h0 | ⟨init, last, h1⟩
    · subst h0; simp at h
    · subst h1
      rw [List.concat_eq_append, List.getLast?_append] at h
      simp only [List.getLast?_singleton, Option.or, Option.some.injEq] at h
      exact ⟨init, by rw [h]; simp⟩
  rw [sends_append]
  simp [sends]

/-- What a `trySend` call appends to the trace. -/
theorem trySend_trace {s : EmailService} {p : Provider} {m : Email} {r : Nat} {d : Int}
    {w : World} {ok : Bool} {s' : EmailService} {w' : World}
    (h : s.trySend p m r d w = some (ok, s', w')) :
    ∃ evs, w'.trace = w.trace ++ evs ∧ w'.clock = w.clock ∧ admissionTimes evs = [] ∧
      (ok = true → evs.getLast? = some (Event.send p.name m.id true)) ∧
      (ok = false → ∀ e ∈ sends evs, e.2.2 = false) := by
  obtain ⟨b, -, hc, ⟨-, rfl, htr⟩ | ⟨-, k, -, -, -, htr⟩⟩ := trySend_run h
  · exact ⟨_, htr, hc, admissionTimes_gate b w, by simp, by simp [sends_gate]⟩
  · refine ⟨_, htr, hc, ?_, ?_, ?_⟩
    · simp [admissionTimes_append, admissionTimes_gate, admissionTimes_failedAttempts,
        admissionTimes_successEvent]
    · rintro rfl
      simp [successEvent, ← List.append_assoc]
    · rintro rfl
      simp only [sends_append, sends_gate, sends_failedAttempts, sends_successEvent,
        List.nil_append, List.append_nil]
      intro e he
      simp only [Bool.false_eq_true, if_false, List.append_nil] at he
      rw [List.eq_of_mem_replicate he]

theorem dispatch_trace {m : Email} {ps : List Provider} {s : EmailService} {w : World}
    {o : Outcome} {s' : EmailService} {w' : World}
    (h : EmailService.dispatch m ps s w = some (o, s', w')) :
    ∃ evs, w'.trace = w.trace ++ evs ∧ w'.clock = w.clock ∧ admissionTimes evs = [] ∧
      (∀ n, o = Outcome.Delivered n → evs.getLast? = some (Event.send n m.id true)) ∧
      (o = Outcome.AllBackendsFailed → ∀ e ∈ sends evs, e.2.2 = false) := by
  induction ps generalizing s w with
  | nil =>
    simp only [EmailService.dispatch, Option.some.injEq, Prod.mk.injEq] at h
    obtain ⟨rfl, -, rfl⟩ := h
    exact ⟨[], by simp, rfl, rfl, by simp, by simp [sends]⟩
  | cons p ps ih =>
    unfold EmailService.dispatch at h
    split at h
    · cases h
    · rename_i s1 w1 ht
      obtain ⟨evs, htr, hc, ha, hlast, -⟩ := trySend_trace ht
      simp only [Option.some.injEq, Prod.mk.injEq] at h
      obtain ⟨rfl, -, rfl⟩ := h
      refine ⟨evs, htr, hc, ha, ?_, by simp⟩
      intro n hn
      cases hn
      exact hlast rfl
    · rename_i s1 w1 ht
      obtain ⟨evs, htr, hc, ha, -, hfail⟩ := trySend_trace ht
      obtain ⟨evs2, htr2, hc2, ha2, hlast2, hfail2⟩ := ih h
      refine ⟨evs ++ evs2, by rw [htr2, htr, List.append_assoc], hc2.trans hc,
        by rw [admissionTimes_append, ha, ha2]; rfl, ?_, ?_⟩
      · intro n hn
        have h2 := hlast2 n hn
        rw [List.getLast?_append, h2]
        rfl
      · intro ho e he
        rw [sends_append, List.mem_append] at he
        rcases he with he | he
        · exact hfail rfl e he
        · exact hfail2 ho e he

/-- Registered breakers stay registered. -/
theorem trySend_breakers {s : EmailService} {p : Provider} {m : Email} {r : Nat} {d : Int}
    {w : World} {ok : Bool} {s' : EmailService} {w' : World}
    (h : s.trySend p m r d w = some (ok, s', w')) (q : String)
    (hq : (s.circuitBreakers q).isSome = true) : (s'.circuitBreakers q).isSome = true := by
  unfold EmailService.trySend at h
  split at h
  · cases h
  · dsimp only at h
    split at h <;>
      (simp only [Option.some.injEq, Prod.mk.injEq] at h
       obtain ⟨-, rfl, -⟩ := h
       simp only [setBreaker]
       split
       · rfl
       · exact hq)

theorem trySend_returns (s : EmailService) (p : Provider) (m : Email) (r : Nat) (d : Int)
    (w : World) (hp : (s.circuitBreakers p.name).isSome = true) :
    ∃ ok s' w', s.trySend p m r d w = some (ok, s', w') := by
  obtain ⟨b, hb⟩ := Option.isSome_iff_exists.1 hp
  unfold EmailService.trySend
  rw [hb]
  dsimp only
  split
  · exact ⟨_, _, _, rfl⟩
  · exact ⟨_, _, _, rfl⟩

theorem dispatch_returns (m : Email) (ps : List Provider) (s : EmailService) (w : World)
    (hwf : ∀ p ∈ ps, (s.circuitBreakers p.name).isSome = true) :
    ∃ o s' w', EmailService.dispatch m ps s w = some (o, s', w') := by
  induction ps generalizing s w with
  | nil => exact ⟨_, _, _, rfl⟩
  | cons p ps ih =>
    obtain ⟨ok, s1, w1, ht⟩ :=
      trySend_returns s p m defaultRetries defaultDelay w (hwf p (List.mem_cons_self _ _))
    unfold EmailService.dispatch
    rw [ht]
    cases ok with
    | true => exact ⟨_, _, _, rfl⟩
    | false =>
      exact ih s1 w1 (fun q hq => trySend_breakers ht q.name (hwf q (List.mem_cons_of_mem _ hq)))

theorem dispatch_breakers {m : Email} {ps : List Provider} {s : EmailService} {w : World}
    {o : Outcome} {s' : EmailService} {w' : World}
    (h : EmailService.dispatch m ps s w = some (o, s', w')) (q : String)
    (hq : (s.circuitBreakers q).isSome = true) : (s'.circuitBreakers q).isSome = true := by
  induction ps generalizing s w with
  | nil =>
    simp only [EmailService.dispatch, Option.some.injEq, Prod.mk.injEq] at h
    obtain ⟨-, rfl, -⟩ := h
    exact hq
  | cons p ps ih =>
    unfold EmailService.dispatch at h
    split at h
    · cases h
    · rename_i s1 w1 ht
      simp only [Option.some.injEq, Prod.mk.injEq] at h
      obtain ⟨-, rfl, -⟩ := h
      exact trySend_breakers ht q hq
    · rename_i s1 w1 ht
      exact ih h (trySend_breakers ht q hq)

/-- Once the ledger and the limiter let a message through, `sendEmail` is the provider loop. -/
theorem sendEmail_admitted (s : EmailService) (m : Email) (w : World)
    (hled : m.id ∉ s.sentEmails) (hadm : (s.rateLimiter.allow (w.clock w.ticks)).1 = true) :
    s.sendEmail m w = EmailService.dispatch m s.providers
      { s with rateLimiter := (s.rateLimiter.allow (w.clock w.ticks)).2 }
      (w.dateNow Site.allow).2 := by
  unfold EmailService.sendEmail
  rw [if_neg hled]
  dsimp only
  rw [if_neg (by simp only [World.dateNow]; rw [hadm]; simp)]
  rfl

theorem foldl_breakers (ps : List Provider) (init : String → Option CircuitBreaker) (k : String) :
    ps.foldl (fun m p => setBreaker m p.name (CircuitBreaker.new 3 10000)) init k
      = if ∃ p ∈ ps, p.name = k then some (CircuitBreaker.new 3 10000) else init k := by
  induction ps generalizing init with
  | nil => simp
  | cons p ps ih =>
    rw [List.foldl_cons, ih]
    by_cases h1 : ∃ q ∈ ps, q.name = k
    · rw [if_pos h1, if_pos]
      obtain ⟨q, hq, hk⟩ := h1
      exact ⟨q, List.mem_cons_of_mem _ hq, hk⟩
    · rw [if_neg h1]
      by_cases h2 : k = p.name
      · rw [if_pos ⟨p, List.mem_cons_self _ _, h2.symm⟩]
        simp [setBreaker, h2]
      · rw [if_neg]
        · simp [setBreaker, h2]
        · rintro ⟨q, hq, hk⟩
          rcases List.mem_cons.1 hq with rfl | hq
          · exact h2 hk.symm
          · exact h1 ⟨q, hq, hk⟩

/-- The constructor stores a fresh breaker under the name of every provider, and nothing else. -/
theorem new_breakers (ps : List Provider) (k : String) :
    (EmailService.new ps).circuitBreakers k
      = if ∃ p ∈ ps, p.name = k then some (CircuitBreaker.new 3 10000) else none := by
  unfold EmailService.new
  exact foldl_breakers ps _ k

theorem new_registered (ps : List Provider) : (EmailService.new ps).Registered := by
  intro p hp
  rw [new_breakers, if_pos ⟨p, hp, rfl⟩]
  rfl

/-- The provider loop ends in `Delivered n` exactly when the provider list splits into
providers whose `trySend` all returned `false`, then a provider named `n` whose `trySend`
returned `true`; the loop stops there. -/
theorem dispatch_delivered_iff (m : Email) (ps : List Provider) (s : EmailService) (w : World)
    (n : String) (s' : EmailService) (w' : World) :
    EmailService.dispatch m ps s w = some (Outcome.Delivered n, s', w') ↔
      ∃ pre p post s1 w1 s2, ps = pre ++ p :: post ∧ p.name = n ∧
        EmailService.failAll m pre s w = some (s1, w1) ∧
        s1.trySend p m defaultRetries defaultDelay w1 = some (true, s2, w') ∧
        s' = { s2 with sentEmails := setAdd s2.sentEmails m.id } := by
  induction ps generalizing s w with
  | nil =>
    constructor
    · intro h
      simp [EmailService.dispatch] at h
    · rintro ⟨pre, p, post, -, -, -, h, -⟩
      simp at h
  | cons q ps ih =>
    constructor
    · intro h
      unfold EmailService.dispatch at h
      split at h
      · cases h
      · rename_i s1 w1 ht
        simp only [Option.some.injEq, Prod.mk.injEq, Outcome.Delivered.injEq] at h
        obtain ⟨hn, rfl, rfl⟩ := h
        exact ⟨[], q, ps, s, w, s1, rfl, hn, rfl, ht, rfl⟩
      · rename_i s1 w1 ht
        obtain ⟨pre, p, post, sa, wa, sb, hps, hn, hfail, hp, hs'⟩ := (ih s1 w1).1 h
        refine ⟨q :: pre, p, post, sa, wa, sb, by rw [hps]; rfl, hn, ?_, hp, hs'⟩
        unfold EmailService.failAll
        rw [ht]
        exact hfail
    · rintro ⟨pre, p, post, sa, wa, sb, hps, hn, hfail, hp, hs'⟩
      cases pre with
      | nil =>
        simp only [List.nil_append, List.cons.injEq] at hps
        obtain ⟨rfl, rfl⟩ := hps
        simp only [EmailService.failAll, Option.some.injEq, Prod.mk.injEq] at hfail
        obtain ⟨rfl, rfl⟩ := hfail
        unfold EmailService.dispatch
        rw [hp, hs', hn]
      | cons q' pre =>
        simp only [List.cons_append, List.cons.injEq] at hps
        obtain ⟨rfl, rfl⟩ := hps
        unfold EmailService.failAll at hfail
        split at hfail
        · rename_i s1 w1 ht
          unfold EmailService.dispatch
          rw [ht]
          exact (ih s1 w1).2 ⟨pre, p, post, sa, wa, sb, rfl, hn, hfail, hp, hs'⟩
        · cases hfail

/-- A `trySend` that returns `false` either was refused by the breaker, with no backend
invocation and no wait, or made all its attempts, each of which failed. -/
theorem trySend_false {s : EmailService} {p : Provider} {m : Email} {r : Nat} {d : Int}
    {w : World} {s' : EmailService} {w' : World}
    (h : s.trySend p m r d w = some (false, s', w')) :
    (∃ b, s.circuitBreakers p.name = some b ∧ (b.canTryIn w).1 = false ∧
        sends (newEvents w w') = [] ∧ waits (newEvents w w') = []) ∨
      sends (newEvents w w') = List.replicate r (p.name, m.id, false) := by
  obtain ⟨b, hb, -, ⟨hrej, -, htr⟩ | ⟨-, k, -, hk, -, htr⟩⟩ := trySend_run h
  · left
    rw [newEvents_of_trace htr]
    exact ⟨b, hb, hrej, sends_gate b w, waits_gate b w⟩
  · right
    rw [newEvents_of_trace htr, hk rfl]
    simp [sends_append, sends_gate, sends_failedAttempts, sends_successEvent]

/-- A `trySend` that returns `true` ends with the one successful invocation, after fewer
than `retries` failed ones. -/
theorem trySend_true {s : EmailService} {p : Provider} {m : Email} {r : Nat} {d : Int}
    {w : World} {s' : EmailService} {w' : World}
    (h : s.trySend p m r d w = some (true, s', w')) :
    ∃ k, k < r ∧ sends (newEvents w w')
      = List.replicate k (p.name, m.id, false) ++ [(p.name, m.id, true)] := by
  obtain ⟨b, hb, -, ⟨-, hok, -⟩ | ⟨-, k, -, -, hk, htr⟩⟩ := trySend_run h
  · cases hok
  · refine ⟨k, hk rfl, ?_⟩
    rw [newEvents_of_trace htr]
    simp [sends_append, sends_gate, sends_failedAttempts, sends_successEvent]

/-! ## The limiter inside the service -/

/-- A `sendEmail` call for an id that is not in the ledger: it returns, it makes exactly one
admission check, at the next clock reading, and the limiter moves by that one `allow()`. -/
theorem sendEmail_unsent (s : EmailService) (m : Email) (w : World) (hreg : s.Registered)
    (hled : m.id ∉ s.sentEmails) :
    ∃ o s' w', s.sendEmail m w = some (o, s', w') ∧ s'.Registered ∧
      s'.rateLimiter = (s.rateLimiter.allow (w.clock w.ticks)).2 ∧
      (decide (o ≠ Outcome.RateLimited) = (s.rateLimiter.allow (w.clock w.ticks)).1) ∧
      (∀ x ∈ s'.sentEmails, x ∈ s.sentEmails ∨ x = m.id) ∧
      w'.clock = w.clock ∧
      ∃ evs, w'.trace = w.trace ++ evs ∧ admissionTimes evs = [w.clock w.ticks] := by
  by_cases hadm : (s.rateLimiter.allow (w.clock w.ticks)).1 = true
  · rw [sendEmail_admitted s m w hled hadm]
    obtain ⟨o, s', w', h⟩ := dispatch_returns m s.providers
      { s with rateLimiter := (s.rateLimiter.allow (w.clock w.ticks)).2 }
      (w.dateNow Site.allow).2 hreg
    obtain ⟨evs, htr, hc, ha, -, -⟩ := dispatch_trace h
    obtain ⟨hp, hr, hs⟩ := dispatch_frame h
    refine ⟨o, s', w', h, ?_, hr, ?_, ?_, hc, ?_⟩
    · intro p hp'
      rw [hp] at hp'
      exact dispatch_breakers h p.name (hreg p hp')
    · rw [hadm]
      rcases hs with ⟨rfl, -⟩ | ⟨n, rfl, -⟩ <;> simp
    · intro x hx
      rcases hs with ⟨-, hs⟩ | ⟨n, -, hs⟩
      · rw [hs] at hx; exact Or.inl hx
      · rw [hs, mem_setAdd] at hx; exact hx
    · refine ⟨Event.clock Site.allow (w.clock w.ticks) :: evs, ?_, ?_⟩
      · rw [htr]; simp [World.dateNow]
      · simp [admissionTimes, ha]
  · simp only [Bool.not_eq_true] at hadm
    refine ⟨Outcome.RateLimited,
      { s with rateLimiter := (s.rateLimiter.allow (w.clock w.ticks)).2 },
      (w.dateNow Site.allow).2, ?_, hreg, rfl, by rw [hadm]; simp, fun x hx => Or.inl hx,
      rfl, [Event.clock Site.allow (w.clock w.ticks)], rfl, rfl⟩
    unfold EmailService.sendEmail
    rw [if_neg hled]
    dsimp only
    rw [if_pos (by simp only [World.dateNow]; exact hadm)]
    rfl

/-- Consecutive `sendEmail` calls for pairwise distinct ids, none of them in the ledger:
all of them return, and their outcomes follow the limiter run at the admission times. -/
theorem sendAll_unsent (ms : List Email) (s : EmailService) (w : World) (hreg : s.Registered)
    (hnodup : (ms.map (fun e => e.id)).Nodup) (hled : ∀ e ∈ ms, e.id ∉ s.sentEmails) :
    ∃ outs s' w', s.sendAll ms w = some (outs, s', w') ∧
      ∃ evs, w'.trace = w.trace ++ evs ∧ (admissionTimes evs).length = ms.length ∧
        outs.map (fun o => decide (o ≠ Outcome.RateLimited))
          = (s.rateLimiter.allowAll (admissionTimes evs)).1 := by
  induction ms generalizing s w with
  | nil => exact ⟨[], s, w, rfl, [], by simp, rfl, rfl⟩
  | cons m ms ih =>
    rw [List.map_cons, List.nodup_cons] at hnodup
    obtain ⟨o, s1, w1, h1, hreg1, hrl, ho, hs1, -, evs1, htr1, ha1⟩ :=
      sendEmail_unsent s m w hreg (hled m (List.mem_cons_self _ _))
    have hled1 : ∀ e ∈ ms, e.id ∉ s1.sentEmails := by
      intro e he hmem
      rcases hs1 e.id hmem with hin | heq
      · exact hled e (List.mem_cons_of_mem _ he) hin
      · exact hnodup.1 (by rw [← heq]; exact List.mem_map_of_mem _ he)
    obtain ⟨outs, s2, w2, h2, evs2, htr2, hlen2, hout2⟩ := ih s1 w1 hreg1 hnodup.2 hled1
    refine ⟨o :: outs, s2, w2, ?_, evs1 ++ evs2, ?_, ?_, ?_⟩
    · unfold EmailService.sendAll
      rw [h1]
      dsimp only
      rw [h2]
    · rw [htr2, htr1, List.append_assoc]
    · rw [admissionTimes_append, ha1]
      simp [hlen2]
    · rw [admissionTimes_append, ha1]
      rw [List.map_cons, hout2, ho, hrl]
      rfl

/-- The three ways a `sendEmail` call can go. -/
theorem sendEmail_cases {s : EmailService} {m : Email} {w : World}
    {o : Outcome} {s' : EmailService} {w' : World}
    (h : s.sendEmail m w = some (o, s', w')) :
    (m.id ∈ s.sentEmails ∧ o = Outcome.AlreadySent ∧ s' = s ∧ w' = w) ∨
    (m.id ∉ s.sentEmails ∧ (s.rateLimiter.allow (w.clock w.ticks)).1 = false ∧
      o = Outcome.RateLimited ∧
      s' = { s with rateLimiter := (s.rateLimiter.allow (w.clock w.ticks)).2 } ∧
      w' = (w.dateNow Site.allow).2) ∨
    (m.id ∉ s.sentEmails ∧ (s.rateLimiter.allow (w.clock w.ticks)).1 = true ∧
      EmailService.dispatch m s.providers
        { s with rateLimiter := (s.rateLimiter.allow (w.clock w.ticks)).2 }
        (w.dateNow Site.allow).2 = some (o, s', w')) := by
  by_cases hled : m.id ∈ s.sentEmails
  · rw [sendEmail_of_mem w hled] at h
    simp only [Option.some.injEq, Prod.mk.injEq] at h
    obtain ⟨rfl, rfl, rfl⟩ := h
    exact Or.inl ⟨hled, rfl, rfl, rfl⟩
  · by_cases hadm : (s.rateLimiter.allow (w.clock w.ticks)).1 = true
    · rw [sendEmail_admitted s m w hled hadm] at h
      exact Or.inr (Or.inr ⟨hled, hadm, h⟩)
    · simp only [Bool.not_eq_true] at hadm
      unfold EmailService.sendEmail at h
      rw [if_neg hled] at h
      dsimp only at h
      rw [if_pos (by simp only [World.dateNow]; exact hadm)] at h
      simp only [Option.some.injEq, Prod.mk.injEq] at h
      obtain ⟨rfl, rfl, rfl⟩ := h
      exact Or.inr (Or.inl ⟨hled, hadm, rfl, rfl, rfl⟩)

theorem setBreaker_self (c : String → Option CircuitBreaker) (name : String)
    (b : CircuitBreaker) (h : c name = some b) : setBreaker c name b = c := by
  funext k
  unfold setBreaker
  split
  · rename_i hk; rw [hk, h]
  · rfl

theorem allow_requests_fresh (r : RateLimiter) (now : Int) (hW : 0 < r.intervalMs) :
    ∀ t ∈ (r.allow now).2.requests, now - t < r.intervalMs := by
  intro t ht
  unfold RateLimiter.allow at ht
  dsimp only at ht
  split at ht
  · simpa using (List.mem_filter.1 ht).2
  · rcases List.mem_append.1 ht with h | h
    · simpa using (List.mem_filter.1 h).2
    · rw [List.mem_singleton] at h
      subst h
      omega

theorem allow_requests_bound (r : RateLimiter) (now : Int)
    (hb : (r.requests.length : Int) ≤ r.limit) :
    ((r.allow now).2.requests.length : Int) ≤ r.limit := by
  have hle := List.length_filter_le (fun t => decide (now - t < r.intervalMs)) r.requests
  unfold RateLimiter.allow
  dsimp only
  split
  · dsimp only; omega
  · simp only [List.length_append, List.length_singleton]
    push_cast
    omega

theorem canTry_fields (b : CircuitBreaker) (now : Int) :
    (b.canTry now).2.threshold = b.threshold ∧ (b.canTry now).2.timeout = b.timeout := by
  unfold CircuitBreaker.canTry
  split
  · split <;> exact ⟨rfl, rfl⟩
  · exact ⟨rfl, rfl⟩

/-- The stored state of a reachable breaker tells whether the counter has reached the threshold. -/
theorem breaker_open_iff {b : CircuitBreaker} (hr : b.Reachable) (hth : 1 ≤ b.threshold) :
    b.state = BreakerState.OPEN ↔ b.threshold ≤ (b.failureCount : Int) := by
  induction hr with
  | fresh threshold timeout =>
    simp only [CircuitBreaker.new] at hth ⊢
    constructor
    · intro h; cases h
    · intro h; push_cast at h; omega
  | @canTry b now _ ih =>
    rw [(canTry_fields b now).1] at hth ⊢
    have ih := ih hth
    unfold CircuitBreaker.canTry
    split
    · split
      · simp only [CircuitBreaker.reset]
        constructor
        · intro h; cases h
        · intro h; push_cast at h; omega
      · exact ih
    · exact ih
  | @recordFailure b now _ ih =>
    rw [(recordFailure_fields b now).1] at hth ⊢
    have ih := ih hth
    unfold CircuitBreaker.recordFailure
    dsimp only
    split
    · rename_i hge
      exact ⟨fun _ => hge, fun _ => rfl⟩
    · rename_i hlt
      dsimp only
      constructor
      · intro h
        have := ih.1 h
        push_cast
        omega
      · intro h
        exact absurd h hlt
  | @reset b _ ih =>
    simp only [CircuitBreaker.reset] at hth ⊢
    constructor
    · intro h; cases h
    · intro h; push_cast at h; omega

/-- The run of the retry loop with the outcomes of the attempts and the breaker it leaves:
`k` attempts fail, the next one succeeds if the loop returns `true`. -/
theorem attempts_outcomes (p : Provider) (m : Email) (d : Int) (rem i : Nat) (b : CircuitBreaker)
    (w : World) :
    ∃ k, k ≤ rem ∧
      (EmailService.attempts p m d rem i b w).2.2.trace
        = w.trace ++ (failedAttempts p.name m.id d w.clock k i w.ticks ++
            successEvent p.name m.id (EmailService.attempts p m d rem i b w).1) ∧
      (EmailService.attempts p m d rem i b w).2.2.calls
        = w.calls + k + (if (EmailService.attempts p m d rem i b w).1 then 1 else 0) ∧
      (∀ j, j < k → p.sendEmail (w.calls + j) m = false) ∧
      ((EmailService.attempts p m d rem i b w).1 = true →
        k < rem ∧ p.sendEmail (w.calls + k) m = true ∧
        (EmailService.attempts p m d rem i b w).2.1.state = BreakerState.CLOSED ∧
        (EmailService.attempts p m d rem i b w).2.1.failureCount = 0) ∧
      ((EmailService.attempts p m d rem i b w).1 = false →
        k = rem ∧
        (EmailService.attempts p m d rem i b w).2.1
          = b.recordFailures ((List.range rem).map (fun j => w.clock (w.ticks + j)))) ∧
      (EmailService.attempts p m d rem i b w).2.1.threshold = b.threshold ∧
      (EmailService.attempts p m d rem i b w).2.1.timeout = b.timeout := by
  induction rem generalizing i b w with
  | zero =>
    refine ⟨0, le_refl _, by simp [EmailService.attempts, failedAttempts, successEvent],
      by simp [EmailService.attempts], fun j hj => absurd hj (Nat.not_lt_zero j),
      by simp [EmailService.attempts], fun _ => ⟨rfl, rfl⟩, rfl, rfl⟩
  | succ rem ih =>
    unfold EmailService.attempts
    dsimp only
    by_cases hok : (w.invoke p m).1 = true
    · rw [if_pos hok]
      have hok' : p.sendEmail w.calls m = true := hok
      refine ⟨0, Nat.zero_le _, ?_, ?_, fun j hj => absurd hj (Nat.not_lt_zero j), ?_,
        by simp, rfl, rfl⟩
      · simp only [World.invoke, failedAttempts, successEvent, if_true, List.nil_append, hok']
      · simp [World.invoke]
      · intro _
        exact ⟨Nat.succ_pos _, hok', rfl, rfl⟩
    · rw [if_neg hok]
      simp only [Bool.not_eq_true] at hok
      have hok' : p.sendEmail w.calls m = false := hok
      obtain ⟨k, hk, htr, hcalls, hfail, ht, hf, hth, hto⟩ := ih (i + 1)
        (b.recordFailureIn (w.invoke p m).2).1
        ((b.recordFailureIn (w.invoke p m).2).2.sleep (d * 2 ^ i))
      have hcalls0 : ((b.recordFailureIn (w.invoke p m).2).2.sleep (d * 2 ^ i)).calls
          = w.calls + 1 := rfl
      have hticks0 : ((b.recordFailureIn (w.invoke p m).2).2.sleep (d * 2 ^ i)).ticks
          = w.ticks + 1 := rfl
      have hclock0 : ((b.recordFailureIn (w.invoke p m).2).2.sleep (d * 2 ^ i)).clock
          = w.clock := rfl
      have hb0 : (b.recordFailureIn (w.invoke p m).2).1 = b.recordFailure (w.clock w.ticks) := rfl
      rw [hcalls0] at hcalls hfail ht
      rw [hticks0, hclock0] at hf
      refine ⟨k + 1, Nat.succ_le_succ hk, ?_, ?_, ?_, ?_, ?_, ?_, ?_⟩
      · rw [htr]
        simp only [World.sleep, CircuitBreaker.recordFailureIn, World.dateNow, World.invoke,
          failedAttempts, hok', List.append_assoc, List.cons_append, List.nil_append]
      · rw [hcalls]; omega
      · intro j hj
        cases j with
        | zero => exact hok'
        | succ j =>
          have := hfail j (by omega)
          rw [show w.calls + (j + 1) = w.calls + 1 + j by omega]
          exact this
      · intro h
        obtain ⟨h1, h2, h3, h4⟩ := ht h
        refine ⟨Nat.succ_lt_succ h1, ?_, h3, h4⟩
        rw [show w.calls + (k + 1) = w.calls + 1 + k by omega]
        exact h2
      · intro h
        obtain ⟨h1, h2⟩ := hf h
        refine ⟨by rw [h1], ?_⟩
        rw [h2, hb0, List.range_succ_eq_map, List.map_cons, CircuitBreaker.recordFailures,
          List.map_map]
        simp only [Nat.add_zero]
        congr 1
        apply List.map_congr_left
        intro j _
        simp only [Function.comp]
        congr 1
        omega
      · rw [hth, hb0]; exact (recordFailure_fields b _).1
      · rw [hto, hb0]; exact (recordFailure_fields b _).2.1

/-- A `trySend` whose breaker admits the provider is the retry loop. -/
theorem trySend_admitted (s : EmailService) (p : Provider) (m : Email) (r : Nat) (d : Int)
    (w : World) (b : CircuitBreaker) (hb : s.circuitBreakers p.name = some b)
    (hadm : (b.canTryIn w).1 = true) :
    s.trySend p m r d w = some
      ((EmailService.attempts p m d r 0 (b.canTryIn w).2.1 (b.canTryIn w).2.2).1,
        { s with
          circuitBreakers :=
            setBreaker s.circuitBreakers p.name
              (EmailService.attempts p m d r 0 (b.canTryIn w).2.1 (b.canTryIn w).2.2).2.1 },
        (EmailService.attempts p m d r 0 (b.canTryIn w).2.1 (b.canTryIn w).2.2).2.2) := by
  unfold EmailService.trySend
  rw [hb]
  dsimp only
  rw [if_neg (by rw [hadm]; simp)]

/-! ## Breakers between calls -/

theorem canTryIn_settled (b : CircuitBreaker) (w : World) (hb : b.Settled) :
    (b.canTryIn w).2.1.Settled ∧
      ((b.canTryIn w).1 = true →
        (b.canTryIn w).2.1.state = BreakerState.CLOSED ∧ (b.canTryIn w).2.1.failureCount = 0 ∧
        (b.canTryIn w).2.1.threshold = 3) := by
  obtain ⟨hth, hst⟩ := hb
  unfold CircuitBreaker.canTryIn CircuitBreaker.canTry
  by_cases hopen : b.state = BreakerState.OPEN
  · rw [if_pos hopen]
    dsimp only
    rw [if_pos hopen]
    split
    · exact ⟨⟨hth, Or.inl ⟨rfl, rfl⟩⟩, fun _ => ⟨rfl, rfl, hth⟩⟩
    · exact ⟨⟨hth, hst⟩, fun h => by cases h⟩
  · rw [if_neg hopen]
    dsimp only
    rw [if_neg hopen]
    refine ⟨⟨hth, hst⟩, fun _ => ?_⟩
    rcases hst with ⟨h1, h2⟩ | ⟨h1, -⟩
    · exact ⟨h1, h2, hth⟩
    · exact absurd h1 hopen

theorem attempts_settled (p : Provider) (m : Email) (d : Int) (b : CircuitBreaker) (w : World)
    (hth : b.threshold = 3) (hfc : b.failureCount = 0) :
    (EmailService.attempts p m d defaultRetries 0 b w).2.1.Settled := by
  obtain ⟨k, -, -, -, -, ht, hf, hth', -⟩ := attempts_outcomes p m d defaultRetries 0 b w
  cases hok : (EmailService.attempts p m d defaultRetries 0 b w).1 with
  | true =>
    obtain ⟨-, -, h3, h4⟩ := ht hok
    exact ⟨hth'.trans hth, Or.inl ⟨h3, h4⟩⟩
  | false =>
    obtain ⟨-, h2⟩ := hf hok
    rw [h2]
    refine ⟨?_, Or.inr ?_⟩
    · rw [(recordFailures_fields _ b).1, hth]
    · simp [defaultRetries, List.range_succ, CircuitBreaker.recordFailures,
        CircuitBreaker.recordFailure, hth, hfc]

theorem trySend_settled {s : EmailService} {p : Provider} {m : Email} {d : Int}
    {w : World} {ok : Bool} {s' : EmailService} {w' : World}
    (h : s.trySend p m defaultRetries d w = some (ok, s', w')) (hs : s.Settled) :
    s'.Settled := by
  unfold EmailService.trySend at h
  split at h
  · cases h
  · rename_i b hb
    dsimp only at h
    obtain ⟨hset, hadm⟩ := canTryIn_settled b w (hs _ b hb)
    split at h
    · simp only [Option.some.injEq, Prod.mk.injEq] at h
      obtain ⟨-, rfl, -⟩ := h
      intro name b' hb'
      simp only [setBreaker] at hb'
      split at hb'
      · cases hb'; exact hset
      · exact hs name b' hb'
    · rename_i hne
      simp only [Bool.not_eq_false] at hne
      obtain ⟨-, h2, h3⟩ := hadm hne
      simp only [Option.some.injEq, Prod.mk.injEq] at h
      obtain ⟨-, rfl, -⟩ := h
      intro name b' hb'
      simp only [setBreaker] at hb'
      split at hb'
      · cases hb'
        exact attempts_settled p m d _ _ h3 h2
      · exact hs name b' hb'

theorem dispatch_settled {m : Email} {ps : List Provider} {s : EmailService} {w : World}
    {o : Outcome} {s' : EmailService} {w' : World}
    (h : EmailService.dispatch m ps s w = some (o, s', w')) (hs : s.Settled) : s'.Settled := by
  induction ps generalizing s w with
  | nil =>
    simp only [EmailService.dispatch, Option.some.injEq, Prod.mk.injEq] at h
    obtain ⟨-, rfl, -⟩ := h
    exact hs
  | cons p ps ih =>
    unfold EmailService.dispatch at h
    split at h
    · cases h
    · rename_i s1 w1 ht
      simp only [Option.some.injEq, Prod.mk.injEq] at h
      obtain ⟨-, rfl, -⟩ := h
      exact fun name b hb => trySend_settled ht hs name b hb
    · rename_i s1 w1 ht
      exact ih h (trySend_settled ht hs)

theorem sendEmail_settled {s : EmailService} {m : Email} {w : World}
    {o : Outcome} {s' : EmailService} {w' : World}
    (h : s.sendEmail m w = some (o, s', w')) (hs : s.Settled) : s'.Settled := by
  rcases sendEmail_cases h with ⟨-, -, rfl, -⟩ | ⟨-, -, -, rfl, -⟩ | ⟨-, -, hd⟩
  · exact hs
  · exact hs
  · exact dispatch_settled hd hs

/-- A service with a breaker for every provider answers every `sendEmail` call. -/
theorem sendEmail_returns (s : EmailService) (m : Email) (w : World) (hreg : s.Registered) :
    ∃ o s' w', s.sendEmail m w = some (o, s', w') ∧ s'.Registered ∧
      s'.providers = s.providers := by
  by_cases hled : m.id ∈ s.sentEmails
  · exact ⟨_, _, _, sendEmail_of_mem w hled, hreg, rfl⟩
  · obtain ⟨o, s', w', h, hreg', -⟩ := sendEmail_unsent s m w hreg hled
    exact ⟨o, s', w', h, hreg', (sendEmail_ledger h).1⟩

theorem sendAll_returns (ms : List Email) (s : EmailService) (w : World) (hreg : s.Registered)
    (hs : s.Settled) :
    ∃ outs s' w', s.sendAll ms w = some (outs, s', w') ∧ s'.Registered ∧ s'.Settled ∧
      s'.providers = s.providers := by
  induction ms generalizing s w with
  | nil => exact ⟨[], s, w, rfl, hreg, hs, rfl⟩
  | cons m ms ih =>
    obtain ⟨o, s1, w1, h1, hreg1, hp1⟩ := sendEmail_returns s m w hreg
    obtain ⟨outs, s2, w2, h2, hreg2, hs2, hp2⟩ := ih s1 w1 hreg1 (sendEmail_settled h1 hs)
    refine ⟨o :: outs, s2, w2, ?_, hreg2, hs2, hp2.trans hp1⟩
    unfold EmailService.sendAll
    rw [h1]
    dsimp only
    rw [h2]

theorem new_settled (ps : List Provider) : (EmailService.new ps).Settled := by
  intro name b hb
  rw [new_breakers] at hb
  split at hb
  · cases hb
    exact ⟨rfl, Or.inl ⟨rfl, rfl⟩⟩
  · cases hb

/-! ## One call, segment by segment -/

theorem setBreaker_setBreaker (c : String → Option CircuitBreaker) (name : String)
    (b1 b2 : CircuitBreaker) : setBreaker (setBreaker c name b1) name b2 = setBreaker c name b2 := by
  funext k
  unfold setBreaker
  split <;> rfl

theorem setBreaker_same (c : String → Option CircuitBreaker) (name : String)
    (b : CircuitBreaker) : setBreaker c name b name = some b := by
  simp [setBreaker]

theorem Steps.trans {x y z : Progress × EmailService × World} (h1 : Steps x y)
    (h2 : Steps y z) : Steps x z := by
  induction h1 with
  | refl x => exact h2
  | step k s w y _ ih => exact Steps.step k s w z (ih h2)

/-- The retry loop, run segment by segment with no other call in between, ends parked on
the result of `trySend` with the breaker and the world that `attempts` computes. -/
theorem loopHead_steps (m : Email) (p : Provider) (rest : List Provider) (rem i : Nat)
    (b : CircuitBreaker) (s : EmailService) (w : World)
    (hb : s.circuitBreakers p.name = some b) :
    Steps (loopHead m p rest i rem s w)
      (Progress.suspended (Suspended.tried m p rest
          (EmailService.attempts p m defaultDelay rem i b w).1),
        { s with
          circuitBreakers :=
            setBreaker s.circuitBreakers p.name
              (EmailService.attempts p m defaultDelay rem i b w).2.1 },
        (EmailService.attempts p m defaultDelay rem i b w).2.2) := by
  induction rem generalizing i b s w with
  | zero =>
    have hs : ({ s with circuitBreakers := setBreaker s.circuitBreakers p.name b } : EmailService)
        = s := by
      rw [setBreaker_self _ _ _ hb]
    simp only [loopHead, EmailService.attempts, hs]
    exact Steps.refl _
  | succ rem ih =>
    unfold loopHead EmailService.attempts
    dsimp only
    apply Steps.step
    by_cases hok : (w.invoke p m).1 = true
    · rw [if_pos hok]
      simp only [resume, hb, hok, if_true]
      exact Steps.refl _
    · rw [if_neg hok]
      simp only [Bool.not_eq_true] at hok
      simp only [resume, hb, hok, Bool.false_eq_true, if_false]
      apply Steps.step
      simp only [resume]
      have := ih (i + 1) (b.recordFailureIn (w.invoke p m).2).1
        { s with
          circuitBreakers :=
            setBreaker s.circuitBreakers p.name (b.recordFailureIn (w.invoke p m).2).1 }
        ((b.recordFailureIn (w.invoke p m).2).2.sleep (defaultDelay * 2 ^ i))
        (setBreaker_same _ _ _)
      simp only [setBreaker_setBreaker] at this
      exact this

/-- The provider loop, run segment by segment with no other call in between, ends as
`dispatch` says. -/
theorem visit_steps {m : Email} {ps : List Provider} {s : EmailService} {w : World}
    {o : Outcome} {s' : EmailService} {w' : World}
    (h : EmailService.dispatch m ps s w = some (o, s', w')) :
    Steps (visit m ps s w) (Progress.done o, s', w') := by
  induction ps generalizing s w with
  | nil =>
    simp only [EmailService.dispatch, Option.some.injEq, Prod.mk.injEq] at h
    obtain ⟨rfl, rfl, rfl⟩ := h
    exact Steps.refl _
  | cons p ps ih =>
    unfold EmailService.dispatch at h
    cases hb : s.circuitBreakers p.name with
    | none =>
      simp [EmailService.trySend, hb] at h
    | some b =>
      by_cases hadm : (b.canTryIn w).1 = true
      · rw [trySend_admitted s p m defaultRetries defaultDelay w b hb hadm] at h
        have hloop := loopHead_steps m p ps defaultRetries 0 (b.canTryIn w).2.1
          { s with circuitBreakers := setBreaker s.circuitBreakers p.name (b.canTryIn w).2.1 }
          (b.canTryIn w).2.2 (setBreaker_same _ _ _)
        simp only [setBreaker_setBreaker] at hloop
        have hvisit : visit m (p :: ps) s w = loopHead m p ps 0 defaultRetries
            { s with circuitBreakers := setBreaker s.circuitBreakers p.name (b.canTryIn w).2.1 }
            (b.canTryIn w).2.2 := by
          simp only [visit, hb, hadm]
          rfl
        rw [hvisit]
        refine Steps.trans hloop ?_
        apply Steps.step
        cases hres : (EmailService.attempts p m defaultDelay defaultRetries 0
            (b.canTryIn w).2.1 (b.canTryIn w).2.2).1 with
        | true =>
          rw [hres] at h
          simp only [Option.some.injEq, Prod.mk.injEq] at h
          obtain ⟨rfl, rfl, rfl⟩ := h
          simp only [resume]
          exact Steps.refl _
        | false =>
          rw [hres] at h
          simp only [resume]
          exact ih h
      · simp only [Bool.not_eq_true] at hadm
        have htry : s.trySend p m defaultRetries defaultDelay w = some (false,
            { s with circuitBreakers := setBreaker s.circuitBreakers p.name (b.canTryIn w).2.1 },
            (b.canTryIn w).2.2) := by
          simp only [EmailService.trySend, hb, hadm, if_true]
        rw [htry] at h
        have hvisit : visit m (p :: ps) s w =
            (Progress.suspended (Suspended.tried m p ps false),
              { s with circuitBreakers := setBreaker s.circuitBreakers p.name (b.canTryIn w).2.1 },
              (b.canTryIn w).2.2) := by
          simp only [visit, hb, hadm, if_true]
        rw [hvisit]
        apply Steps.step
        simp only [resume]
        exact ih h

/-- A call that runs on its own, resumed until it returns, does what `sendEmail` says. -/
theorem start_steps {s : EmailService} {m : Email} {w : World}
    {o : Outcome} {s' : EmailService} {w' : World}
    (h : s.sendEmail m w = some (o, s', w')) :
    Steps (start m s w) (Progress.done o, s', w') := by
  rcases sendEmail_cases h with ⟨hled, rfl, rfl, rfl⟩ | ⟨hled, hrej, rfl, rfl, rfl⟩ |
    ⟨hled, hadm, hd⟩
  · simp only [start, hled, if_true]
    exact Steps.refl _
  · have : start m s w = (Progress.done Outcome.RateLimited,
        { s with rateLimiter := (s.rateLimiter.allow (w.clock w.ticks)).2 },
        (w.dateNow Site.allow).2) := by
      unfold start
      rw [if_neg hled]
      dsimp only
      rw [if_pos (by simp only [World.dateNow]; exact hrej)]
      rfl
    rw [this]
    exact Steps.refl _
  · have : start m s w = visit m s.providers
        { s with rateLimiter := (s.rateLimiter.allow (w.clock w.ticks)).2 }
        (w.dateNow Site.allow).2 := by
      unfold start
      rw [if_neg hled]
      dsimp only
      rw [if_neg (by simp only [World.dateNow]; rw [hadm]; simp)]
      rfl
    rw [this]
    exact visit_steps hd

/-- Calls for ids that are all in the ledger are all answered "Already sent". -/
theorem sendAll_already (ms : List Email) (s : EmailService) (w : World)
    (h : ∀ e ∈ ms, e.id ∈ s.sentEmails) :
    s.sendAll ms w = some (List.replicate ms.length Outcome.AlreadySent, s, w) := by
  induction ms with
  | nil => rfl
  | cons m ms ih =>
    unfold EmailService.sendAll
    rw [sendEmail_of_mem w (h m (List.mem_cons_self _ _))]
    dsimp only
    rw [ih (fun e he => h e (List.mem_cons_of_mem _ he))]
    rfl

/-- The first call on a fresh service whose only provider always succeeds. -/
theorem first_call_delivers (P : Provider) (hP : ∀ n e, P.sendEmail n e = true) (m : Email)
    (w : World) :
    ∃ s' w', (EmailService.new [P]).sendEmail m w = some (Outcome.Delivered P.name, s', w') ∧
      s'.sentEmails = [m.id] ∧
      w'.trace = w.trace ++ [Event.clock Site.allow (w.clock w.ticks),
        Event.send P.name m.id true] := by
  cases hr : (EmailService.new [P]).sendEmail m w with
  | none =>
    simp [EmailService.sendEmail, EmailService.new, RateLimiter.new, RateLimiter.allow,
      EmailService.dispatch, EmailService.trySend, setBreaker,
      CircuitBreaker.canTryIn, CircuitBreaker.canTry, CircuitBreaker.new,
      EmailService.attempts, defaultRetries, defaultDelay, World.invoke, hP,
      World.dateNow, CircuitBreaker.reset] at hr
  | some r =>
    obtain ⟨o, s', w'⟩ := r
    simp [EmailService.sendEmail, EmailService.new, RateLimiter.new, RateLimiter.allow,
      EmailService.dispatch, EmailService.trySend, setBreaker,
      CircuitBreaker.canTryIn, CircuitBreaker.canTry, CircuitBreaker.new,
      EmailService.attempts, defaultRetries, defaultDelay, World.invoke, hP,
      World.dateNow, CircuitBreaker.reset] at hr
    obtain ⟨rfl, rfl, rfl⟩ := hr
    exact ⟨_, _, rfl, by simp [setAdd], by simp⟩

/-! ## The claims -/

/-- C1 (idempotency, sequential). Whatever the service state, the message and the
behaviour of the backends: once `sendEmail m` has returned the "sent successfully"
outcome, a later `sendEmail` of a message with the same id (after any further
sequence of completed `sendEmail` calls) returns "Already sent" and leaves the
service and the world untouched, so no backend is invoked and nothing is awaited. -/
theorem sendEmail_idempotent (s : EmailService) (w : World) (m m' : Email)
    (between : List Email) (n : String) (s1 : EmailService) (w1 : World)
    (outs : List Outcome) (s2 : EmailService) (w2 : World)
    (hfirst : s.sendEmail m w = some (Outcome.Delivered n, s1, w1))
    (hbetween : s1.sendAll between w1 = some (outs, s2, w2))
    (hid : m'.id = m.id) :
    s2.sendEmail m' w2 = some (Outcome.AlreadySent, s2, w2) := by
  apply sendEmail_of_mem
  rw [hid]
  apply sendAll_ledger_mono hbetween
  rcases (sendEmail_ledger hfirst).2 with ⟨n', -, hs⟩ | ⟨hne, -⟩
  · rw [hs, mem_setAdd]; exact Or.inr rfl
  · exact absurd rfl (hne n)

/-- Instance of C1: the demo service delivers `m1` through `ProviderB`, then handles `m2`,
and a second `m1` is answered "Already sent". -/
theorem sendEmail_idempotent_witness :
    (serviceAfter (demoService.sendAll [mail "m1", mail "m2"] demoWorld) demoService).sendEmail
        (mail "m1") (worldAfter (demoService.sendAll [mail "m1", mail "m2"] demoWorld) demoWorld)
      = some (Outcome.AlreadySent,
          serviceAfter (demoService.sendAll [mail "m1", mail "m2"] demoWorld) demoService,
          worldAfter (demoService.sendAll [mail "m1", mail "m2"] demoWorld) demoWorld) :=
  sendEmail_idempotent demoService demoWorld (mail "m1") (mail "m1") [mail "m2"] "ProviderB"
    (serviceAfter (demoService.sendEmail (mail "m1") demoWorld) demoService)
    (worldAfter (demoService.sendEmail (mail "m1") demoWorld) demoWorld)
    [Outcome.Delivered "ProviderB"]
    (serviceAfter (demoService.sendAll [mail "m1", mail "m2"] demoWorld) demoService)
    (worldAfter (demoService.sendAll [mail "m1", mail "m2"] demoWorld) demoWorld)
    rfl rfl rfl

/-- C2 (first success stops the chain, in list order). For a dispatch that passes the
ledger and rate-limiter checks: `sendEmail` returns `Delivered n` exactly when the provider
list splits as `pre ++ p :: post` with `p.name = n`, where `trySend` returned `false` for
every provider of `pre`, visited in order, and then `true` for `p`; the world the call ends in
is the one `trySend` on `p` ended in, so nothing happens after it, and the last event of the
call is the successful invocation of `p`. A `trySend` that returned `false` was either
refused by the breaker (no invocation, no wait) or made all its 3 attempts, all failing. -/
theorem first_success_stops_chain (s : EmailService) (m : Email) (w : World)
    (hled : m.id ∉ s.sentEmails) (hadm : (s.rateLimiter.allow (w.clock w.ticks)).1 = true) :
    (∀ n s' w', s.sendEmail m w = some (Outcome.Delivered n, s', w') ↔
      ∃ pre p post s1 w1 s2, s.providers = pre ++ p :: post ∧ p.name = n ∧
        EmailService.failAll m pre
          { s with rateLimiter := (s.rateLimiter.allow (w.clock w.ticks)).2 }
          (w.dateNow Site.allow).2 = some (s1, w1) ∧
        s1.trySend p m defaultRetries defaultDelay w1 = some (true, s2, w') ∧
        s' = { s2 with sentEmails := setAdd s2.sentEmails m.id }) ∧
    (∀ n s' w', s.sendEmail m w = some (Outcome.Delivered n, s', w') →
      (newEvents w w').getLast? = some (Event.send n m.id true)) ∧
    (∀ (q : Provider) (s1 : EmailService) (w1 : World) (s2 : EmailService) (w2 : World),
      s1.trySend q m defaultRetries defaultDelay w1 = some (false, s2, w2) →
        (∃ b, s1.circuitBreakers q.name = some b ∧ (b.canTryIn w1).1 = false ∧
          sends (newEvents w1 w2) = [] ∧ waits (newEvents w1 w2) = []) ∨
        sends (newEvents w1 w2) = List.replicate defaultRetries (q.name, m.id, false)) := by
  refine ⟨?_, ?_, ?_⟩
  · intro n s' w'
    rw [sendEmail_admitted s m w hled hadm]
    exact dispatch_delivered_iff m s.providers _ _ n s' w'
  · intro n s' w' h
    rw [sendEmail_admitted s m w hled hadm] at h
    obtain ⟨evs, htr, -, -, hlast, -⟩ := dispatch_trace h
    have hnew : newEvents w w' = Event.clock Site.allow (w.clock w.ticks) :: evs := by
      apply newEvents_of_trace
      rw [htr]
      simp [World.dateNow]
    have h2 := hlast n rfl
    rw [hnew, ← List.singleton_append, List.getLast?_append, h2]
    rfl
  · intro q s1 w1 s2 w2 h
    exact trySend_false h

/-- Instance of C2: the demo service delivers `m1`, and the last event of that call is
the successful invocation of `ProviderB`. -/
theorem first_success_stops_chain_witness :
    (mail "m1").id ∉ demoService.sentEmails ∧
      (demoService.rateLimiter.allow (demoWorld.clock demoWorld.ticks)).1 = true ∧
      (newEvents demoWorld
          (worldAfter (demoService.sendEmail (mail "m1") demoWorld) demoWorld)).getLast?
        = some (Event.send "ProviderB" (mail "m1").id true) :=
  ⟨by decide, by decide,
    (first_success_stops_chain demoService (mail "m1") demoWorld (by decide) (by decide)).2.1
      "ProviderB" (serviceAfter (demoService.sendEmail (mail "m1") demoWorld) demoService)
      (worldAfter (demoService.sendEmail (mail "m1") demoWorld) demoWorld) rfl⟩

/-- C3 (fallback ordering). On a freshly constructed service with providers `[A, B]` of
distinct names, where `A` always fails and `B` always succeeds, `sendEmail` of any message,
in any world, returns `Delivered` via `B`; afterwards the breaker of `A` has `failureCount`
equal to `maxRetries` (3), and the backend invocations of the call are three failures of
`A` followed by one success of `B`. -/
theorem fallback_ordering (A B : Provider) (hname : A.name ≠ B.name)
    (hA : ∀ n e, A.sendEmail n e = false) (hB : ∀ n e, B.sendEmail n e = true)
    (m : Email) (w : World) :
    ∃ s' w', (EmailService.new [A, B]).sendEmail m w
        = some (Outcome.Delivered B.name, s', w') ∧
      (s'.circuitBreakers A.name).map (fun b => b.failureCount) = some defaultRetries ∧
      sends (newEvents w w') = [(A.name, m.id, false), (A.name, m.id, false),
        (A.name, m.id, false), (B.name, m.id, true)] := by
  have hBA : B.name ≠ A.name := fun h => hname h.symm
  cases hr : (EmailService.new [A, B]).sendEmail m w with
  | none =>
    simp [EmailService.sendEmail, EmailService.new, RateLimiter.new, RateLimiter.allow,
      EmailService.dispatch, EmailService.trySend, setBreaker, hname, hBA,
      CircuitBreaker.canTryIn, CircuitBreaker.canTry, CircuitBreaker.new,
      EmailService.attempts, defaultRetries, defaultDelay, World.invoke, hA, hB,
      CircuitBreaker.recordFailureIn, CircuitBreaker.recordFailure, World.dateNow, World.sleep,
      CircuitBreaker.reset] at hr
  | some r =>
    obtain ⟨o, s', w'⟩ := r
    simp [EmailService.sendEmail, EmailService.new, RateLimiter.new, RateLimiter.allow,
      EmailService.dispatch, EmailService.trySend, setBreaker, hname, hBA,
      CircuitBreaker.canTryIn, CircuitBreaker.canTry, CircuitBreaker.new,
      EmailService.attempts, defaultRetries, defaultDelay, World.invoke, hA, hB,
      CircuitBreaker.recordFailureIn, CircuitBreaker.recordFailure, World.dateNow, World.sleep,
      CircuitBreaker.reset] at hr
    obtain ⟨rfl, rfl, rfl⟩ := hr
    refine ⟨_, _, rfl, ?_, ?_⟩
    · simp [setBreaker, hname, hBA, defaultRetries]
    · simp [newEvents, sends]

/-- Instance of C3: the two stand-ins of the mock providers. -/
theorem fallback_ordering_witness :
    ∃ s' w', (EmailService.new [alwaysFails "ProviderA", alwaysSucceeds "ProviderB"]).sendEmail
        (mail "m1") demoWorld = some (Outcome.Delivered "ProviderB", s', w') ∧
      (s'.circuitBreakers "ProviderA").map (fun b => b.failureCount) = some defaultRetries ∧
      sends (newEvents demoWorld w') = [("ProviderA", "m1", false), ("ProviderA", "m1", false),
        ("ProviderA", "m1", false), ("ProviderB", "m1", true)] :=
  fallback_ordering (alwaysFails "ProviderA") (alwaysSucceeds "ProviderB") (by decide)
    (fun _ _ => rfl) (fun _ _ => rfl) (mail "m1") demoWorld

/-- C4 (exhaustion). For a service whose providers all have their breaker, a message whose
id is not in the ledger and which the rate limiter admits: `sendEmail` returns; its outcome
is `AllBackendsFailed` exactly when every backend invocation made during the call failed
(each provider was refused by its breaker or failed all its attempts); and then the ledger
does not contain the id of the message afterwards. -/
theorem exhaustion (s : EmailService) (m : Email) (w : World)
    (hreg : s.Registered)
    (hled : m.id ∉ s.sentEmails) (hadm : (s.rateLimiter.allow (w.clock w.ticks)).1 = true) :
    ∃ o s' w', s.sendEmail m w = some (o, s', w') ∧
      ((∀ e ∈ sends (newEvents w w'), e.2.2 = false) ↔ o = Outcome.AllBackendsFailed) ∧
      (o = Outcome.AllBackendsFailed → m.id ∉ s'.sentEmails) := by
  rw [sendEmail_admitted s m w hled hadm]
  obtain ⟨o, s', w', h⟩ := dispatch_returns m s.providers
    { s with rateLimiter := (s.rateLimiter.allow (w.clock w.ticks)).2 }
    (w.dateNow Site.allow).2 hreg
  obtain ⟨evs, htr, -, -, hlast, hfail⟩ := dispatch_trace h
  have hnew : newEvents w w' = Event.clock Site.allow (w.clock w.ticks) :: evs := by
    apply newEvents_of_trace
    rw [htr]
    simp [World.dateNow]
  refine ⟨o, s', w', h, ⟨?_, ?_⟩, ?_⟩
  · intro hall
    obtain ⟨-, -, ⟨rfl, -⟩ | ⟨n, rfl, -⟩⟩ := dispatch_frame h
    · rfl
    · exfalso
      have hmem := mem_sends_of_getLast (hlast n rfl)
      have := hall (n, m.id, true) (by rw [hnew]; simpa [sends] using hmem)
      simp at this
  · intro ho e he
    rw [hnew] at he
    exact hfail ho e (by simpa [sends] using he)
  · rintro rfl
    obtain ⟨-, -, ⟨-, hs⟩ | ⟨n, hn, -⟩⟩ := dispatch_frame h
    · rw [hs]; exact hled
    · cases hn

/-- Instance of C4: both providers fail every attempt, and the call ends in
`AllBackendsFailed` with an empty ledger. -/
theorem exhaustion_witness :
    ∃ o s' w', failingService.sendEmail (mail "m1") demoWorld = some (o, s', w') ∧
      ((∀ e ∈ sends (newEvents demoWorld w'), e.2.2 = false) ↔ o = Outcome.AllBackendsFailed) ∧
      (o = Outcome.AllBackendsFailed → (mail "m1").id ∉ s'.sentEmails) :=
  exhaustion failingService (mail "m1") demoWorld (new_registered _) (by decide) (by decide)

/-- C5 (rate limiting). For every limit `N` and window `W > 0`: on a fresh
`RateLimiter(N, W)`, any `N + 1` consecutive `allow()` calls made at non-decreasing clock
values that all lie less than `W` after the first one yield at least one rejection.
Correspondingly, on a fresh `EmailService` (5 per 10 s), with any providers and in any
world: six consecutive `sendEmail` calls for messages of pairwise distinct ids all return,
and when their admission checks are made at non-decreasing clock values less than 10 s
after the first one, at least one of the six outcomes is `RateLimited`. -/
theorem rate_limit_rejects :
    (∀ (N : Nat) (W : Int), 0 < W → ∀ (t0 : Int) (rest : List Int), rest.length = N →
      (t0 :: rest).Sorted (· ≤ ·) → (∀ t ∈ rest, t - t0 < W) →
        false ∈ ((RateLimiter.new N W).allowAll (t0 :: rest)).1) ∧
    (∀ (ps : List Provider) (ms : List Email) (w : World), ms.length = 6 →
      (ms.map (fun e => e.id)).Nodup →
        (∃ r, (EmailService.new ps).sendAll ms w = some r) ∧
        ∀ (outs : List Outcome) (s' : EmailService) (w' : World),
          (EmailService.new ps).sendAll ms w = some (outs, s', w') →
          ∀ (t0 : Int) (rest : List Int), admissionTimes (newEvents w w') = t0 :: rest →
            (t0 :: rest).Sorted (· ≤ ·) → (∀ t ∈ rest, t - t0 < 10000) →
              Outcome.RateLimited ∈ outs) := by
  have part1 : ∀ (N : Nat) (W : Int), 0 < W → ∀ (t0 : Int) (rest : List Int),
      rest.length = N → (t0 :: rest).Sorted (· ≤ ·) → (∀ t ∈ rest, t - t0 < W) →
        false ∈ ((RateLimiter.new N W).allowAll (t0 :: rest)).1 := by
    intro N W hW t0 rest hlen hsorted hwin
    apply allowAll_rejects
    · simp [RateLimiter.new]
    · simp [RateLimiter.new, hlen]
    · simp [RateLimiter.new]
    · exact window_pairwise W t0 rest hsorted hwin hW
  refine ⟨part1, ?_⟩
  intro ps ms w hlen hnodup
  obtain ⟨outs, s', w', h, evs, htr, hat, hout⟩ :=
    sendAll_unsent ms (EmailService.new ps) w (new_registered ps) hnodup
      (fun e _ => by simp [EmailService.new])
  refine ⟨⟨_, h⟩, ?_⟩
  intro outs2 s2 w2 h2 t0 rest hadm hsorted hwin
  rw [h] at h2
  simp only [Option.some.injEq, Prod.mk.injEq] at h2
  obtain ⟨rfl, rfl, rfl⟩ := h2
  rw [newEvents_of_trace htr] at hadm
  rw [hadm] at hat hout
  have hrest : rest.length = 5 := by
    simp only [List.length_cons] at hat
    omega
  have hrej := part1 5 10000 (by decide) t0 rest hrest hsorted hwin
  have hlim : (EmailService.new ps).rateLimiter = RateLimiter.new ((5 : Nat) : Int) 10000 := rfl
  rw [← hlim, ← hout, List.mem_map] at hrej
  obtain ⟨o, ho, hdec⟩ := hrej
  simp only [ne_eq, decide_not, Bool.not_eq_false', decide_eq_true_eq] at hdec
  rw [← hdec]
  exact ho

/-- Instance of C5: three `allow()` calls within the window of a limiter of limit 2, and six
messages on the demo service with a clock that advances by 1 ms per reading. -/
theorem rate_limit_rejects_witness :
    false ∈ ((RateLimiter.new 2 10).allowAll [0, 1, 2]).1 ∧
      admissionTimes (newEvents fastWorld
        (worldAfter (demoService.sendAll sixMails fastWorld) fastWorld)) = [0, 4, 6, 8, 10, 12] ∧
      Outcome.RateLimited ∈ [Outcome.Delivered "ProviderB", Outcome.Delivered "ProviderB",
        Outcome.Delivered "ProviderB", Outcome.Delivered "ProviderB",
        Outcome.Delivered "ProviderB", Outcome.RateLimited] :=
  ⟨rate_limit_rejects.1 2 10 (by decide) 0 [1, 2] rfl (by decide) (by decide), rfl,
    (rate_limit_rejects.2 [alwaysFails "ProviderA", alwaysSucceeds "ProviderB"] sixMails
        fastWorld rfl (by decide)).2
      [Outcome.Delivered "ProviderB", Outcome.Delivered "ProviderB",
        Outcome.Delivered "ProviderB", Outcome.Delivered "ProviderB",
        Outcome.Delivered "ProviderB", Outcome.RateLimited]
      (serviceAfter (demoService.sendAll sixMails fastWorld) demoService)
      (worldAfter (demoService.sendAll sixMails fastWorld) fastWorld)
      rfl 0 [4, 6, 8, 10, 12] rfl (by decide) (by decide)⟩

/-- C6 (re-admission). For every limiter reached from the constructor by `allow()` calls
(at any clock values, non-decreasing ones included): an `allow()` made at a time more than
`intervalMs` after a timestamp that is still retained, the earliest one in particular,
returns `true`. A retained timestamp exists only when `limit >= 1`. -/
theorem allow_readmits (r : RateLimiter) (hr : r.Reachable)
    (t now : Int) (ht : t ∈ r.requests) (hpast : now - t > r.intervalMs) :
    (r.allow now).1 = true ∧ 1 ≤ r.limit := by
  have hlt : (r.requests.filter (fun t => decide (now - t < r.intervalMs))).length
      < r.requests.length := by
    have hle := List.length_filter_le (fun t => decide (now - t < r.intervalMs)) r.requests
    rcases Nat.lt_or_ge (r.requests.filter (fun t => decide (now - t < r.intervalMs))).length
      r.requests.length with h | h
    · exact h
    · have hall := List.filter_length_eq_length.1 (le_antisymm hle h) t ht
      simp only [decide_eq_true_eq] at hall
      omega
  have hb : (r.requests.length : Int) ≤ r.limit := by
    rcases reachable_bound hr with h0 | hb
    · rw [h0] at ht; cases ht
    · exact hb
  refine ⟨?_, by omega⟩
  unfold RateLimiter.allow
  dsimp only
  rw [if_neg (by omega)]

/-- Instance of C6: a limiter of limit 1 and window 10 that admitted a call at time 0
admits again at time 11. -/
theorem allow_readmits_witness :
    (((RateLimiter.new 1 10).allow 0).2.allow 11).1 = true :=
  (allow_readmits ((RateLimiter.new 1 10).allow 0).2
    (RateLimiter.Reachable.allow 0 (RateLimiter.Reachable.fresh 1 10)) 0 11
    (by decide) (by decide)).1

/-- C7 (a rejecting `allow()` changes nothing). For every state a limiter can be in (built
by the constructor, then changed by `allow()` calls at arbitrary clock values) and every
clock value: when `allow()` returns `false`, the retained timestamps `requests`, and the
whole limiter, are the same after the call as before it. The pruning that precedes the
rejection removes nothing, because a reachable limiter never holds more than `limit`
timestamps. -/
theorem allow_reject_no_change (r : RateLimiter) (hr : r.Reachable) (now : Int)
    (hrej : (r.allow now).1 = false) :
    (r.allow now).2.requests = r.requests ∧ (r.allow now).2 = r := by
  have h := allow_false_unchanged (reachable_bound hr) now hrej
  exact ⟨by rw [h], h⟩

/-- Instance of C7: a limiter of limit 1 and window 10 that admitted a call at time 0
rejects at time 5 and keeps its timestamps. -/
theorem allow_reject_no_change_witness :
    (((RateLimiter.new 1 10).allow 0).2.allow 5).1 = false ∧
      (((RateLimiter.new 1 10).allow 0).2.allow 5).2.requests
        = ((RateLimiter.new 1 10).allow 0).2.requests :=
  ⟨by decide,
    (allow_reject_no_change ((RateLimiter.new 1 10).allow 0).2
      (RateLimiter.Reachable.allow 0 (RateLimiter.Reachable.fresh 1 10)) 5 (by decide)).1⟩

/-- C8 (circuit breaker tripping). For every breaker with `threshold = n >= 1` and
`failureCount = 0`: after `n` consecutive `recordFailure()` calls the breaker is `OPEN` and
`lastFailureTime` is the time of the last of them; every `canTry()` made at a time `u` with
`u - lastFailureTime <= timeout` returns `false` and leaves the breaker as it is; and the
first `canTry()` made at a time `t` with `t - lastFailureTime > timeout` returns `true`. -/
theorem breaker_trips (b : CircuitBreaker) (n : Nat) (hn : 1 ≤ n) (hth : b.threshold = (n : Int))
    (hzero : b.failureCount = 0)
    (fails : List Int) (hlen : fails.length = n)
    (early : List Int)
    (hearly : ∀ u ∈ early, u - (b.recordFailures fails).lastFailureTime ≤ b.timeout)
    (t : Int) (hlate : t - (b.recordFailures fails).lastFailureTime > b.timeout) :
    (b.recordFailures fails).state = BreakerState.OPEN ∧
      fails.getLast? = some (b.recordFailures fails).lastFailureTime ∧
      ((b.recordFailures fails).canTryAll early).1 = List.replicate early.length false ∧
      ((b.recordFailures fails).canTryAll early).2 = b.recordFailures fails ∧
      ((b.recordFailures fails).canTry t).1 = true := by
  obtain ⟨init, last, rfl⟩ : ∃ init last, fails = init ++ [last] := by
    rcases List.eq_nil_or_concat fails with h | ⟨init, last, h⟩
    · subst h; simp at hlen; omega
    · exact ⟨init, last, by simpa using h⟩
  rw [recordFailures_append] at hearly hlate ⊢
  obtain ⟨h1, h2, h3⟩ := recordFailures_fields init b
  obtain ⟨g1, g2, g3, g4⟩ := recordFailure_fields (b.recordFailures init) last
  have hopen : ((b.recordFailures init).recordFailure last).state = BreakerState.OPEN := by
    apply recordFailure_opens
    simp only [List.length_append, List.length_singleton] at hlen
    rw [h1, h3, hth, hzero]
    push_cast
    omega
  have hall := canTryAll_open early _ hopen (by rw [g2, h2]; exact hearly)
  refine ⟨hopen, by simp [g4], by rw [hall], by rw [hall], ?_⟩
  unfold CircuitBreaker.canTry
  rw [if_pos hopen, if_pos (by rw [g2, h2]; exact hlate)]

/-- Instance of C8: the breaker of the service (threshold 3, timeout 10 s) after failures
at 1 s, 2 s and 3 s refuses at 4 s and at 13 s, and admits at 13.001 s. -/
theorem breaker_trips_witness :
    ((CircuitBreaker.new 3 10000).recordFailures [1000, 2000, 3000]).state = BreakerState.OPEN ∧
      [1000, 2000, 3000].getLast?
        = some ((CircuitBreaker.new 3 10000).recordFailures [1000, 2000, 3000]).lastFailureTime ∧
      (((CircuitBreaker.new 3 10000).recordFailures [1000, 2000, 3000]).canTryAll
          [4000, 13000]).1 = List.replicate [4000, 13000].length false ∧
      (((CircuitBreaker.new 3 10000).recordFailures [1000, 2000, 3000]).canTryAll
          [4000, 13000]).2 = (CircuitBreaker.new 3 10000).recordFailures [1000, 2000, 3000] ∧
      (((CircuitBreaker.new 3 10000).recordFailures [1000, 2000, 3000]).canTry 13001).1 = true :=
  breaker_trips (CircuitBreaker.new 3 10000) 3 (by decide) rfl rfl [1000, 2000, 3000] rfl
    [4000, 13000] (by decide) 13001 (by decide)

/-- C9 (the code waits after the final attempt too). When `trySend` returns `false` after
all its `retries` attempts failed, the waits it made are `delay * 2^i` for every
`i < retries`, the one after the final attempt included: `retries` waits, not
`retries - 1`. With the defaults they are 500, 1000 and 2000 ms. -/
theorem backoff_after_final_attempt (s : EmailService) (p : Provider) (m : Email) (r : Nat)
    (d : Int) (w : World) (s' : EmailService) (w' : World)
    (h : s.trySend p m r d w = some (false, s', w'))
    (hall : (sends (newEvents w w')).length = r) :
    waits (newEvents w w') = (List.range r).map (fun i => d * 2 ^ i) ∧
      (waits (newEvents w w')).length = r := by
  have hw : waits (newEvents w w') = (List.range r).map (fun i => d * 2 ^ i) := by
    obtain ⟨b, -, -, ⟨-, -, htr⟩ | ⟨-, k, -, hk, -, htr⟩⟩ := trySend_run h
    · rw [newEvents_of_trace htr] at hall ⊢
      rw [sends_gate] at hall
      rw [waits_gate, ← hall]
      rfl
    · rw [newEvents_of_trace htr]
      rw [hk rfl]
      simp [waits_append, waits_gate, waits_failedAttempts, waits_successEvent]
  exact ⟨hw, by rw [hw]; simp⟩

/-- Instance of C9: `trySend` with the defaults on a provider that always fails waits
500, 1000 and 2000 ms; the last wait follows the final attempt. -/
theorem backoff_after_final_attempt_witness :
    waits (newEvents demoWorld (worldAfter (demoService.trySend (alwaysFails "ProviderA")
        (mail "m1") defaultRetries defaultDelay demoWorld) demoWorld)) = [500, 1000, 2000] :=
  (backoff_after_final_attempt demoService (alwaysFails "ProviderA") (mail "m1")
    defaultRetries defaultDelay demoWorld
    (serviceAfter (demoService.trySend (alwaysFails "ProviderA") (mail "m1")
      defaultRetries defaultDelay demoWorld) demoService)
    (worldAfter (demoService.trySend (alwaysFails "ProviderA") (mail "m1")
      defaultRetries defaultDelay demoWorld) demoWorld) rfl rfl).1

/-- C10 (backoff growth). In every `trySend` call, for every zero-based attempt index `i`:
when attempt `i + 1` is made (so attempt `i` failed), exactly one wait lies between the two
attempts, of `delay * 2^i`; there is no attempt `i + 1` otherwise. With `delay = 500` the
wait before the second attempt is 500 ms and the wait before the third is 1000 ms. -/
theorem backoff_growth (s : EmailService) (p : Provider) (m : Email) (r : Nat) (d : Int)
    (w : World) (ok : Bool) (s' : EmailService) (w' : World)
    (h : s.trySend p m r d w = some (ok, s', w')) :
    (∀ i, waitBetween i (newEvents w w')
      = if i + 2 ≤ (sends (newEvents w w')).length then some [d * 2 ^ i] else none) ∧
    (d = 500 →
      (2 ≤ (sends (newEvents w w')).length → waitBetween 0 (newEvents w w') = some [500]) ∧
      (3 ≤ (sends (newEvents w w')).length → waitBetween 1 (newEvents w w') = some [1000])) := by
  have hgen : ∀ i, waitBetween i (newEvents w w')
      = if i + 2 ≤ (sends (newEvents w w')).length then some [d * 2 ^ i] else none := by
    intro i
    obtain ⟨b, -, -, ⟨-, rfl, htr⟩ | ⟨-, k, -, -, -, htr⟩⟩ := trySend_run h
    · rw [newEvents_of_trace htr]
      have := afterSend_gate b w i []
      simp only [List.append_nil] at this
      simp [waitBetween, this, sends_gate, afterSend, waitsUntilSend]
    · rw [newEvents_of_trace htr]
      simp only [waitBetween, afterSend_gate, sends_append, sends_gate, sends_failedAttempts,
        sends_successEvent, List.nil_append, List.length_append, List.length_replicate]
      have := waitBetween_attempts p.name m.id d w.clock ok k 0 (b.canTryIn w).2.2.ticks i
      simp only [waitBetween, Nat.zero_add] at this
      rw [this]
      cases ok <;> simp <;> congr 1
  refine ⟨hgen, ?_⟩
  rintro rfl
  constructor
  · intro h2
    rw [hgen 0, if_pos h2]
    rfl
  · intro h3
    rw [hgen 1, if_pos h3]
    rfl

/-- Instance of C10: `trySend` with the defaults on a provider that always fails waits
500 ms between attempts 1 and 2 and 1000 ms between attempts 2 and 3. -/
theorem backoff_growth_witness :
    waitBetween 0 (newEvents demoWorld (worldAfter (demoService.trySend
        (alwaysFails "ProviderA") (mail "m1") defaultRetries defaultDelay demoWorld) demoWorld))
      = some [500] ∧
    waitBetween 1 (newEvents demoWorld (worldAfter (demoService.trySend
        (alwaysFails "ProviderA") (mail "m1") defaultRetries defaultDelay demoWorld) demoWorld))
      = some [1000] :=
  ⟨((backoff_growth demoService (alwaysFails "ProviderA") (mail "m1") defaultRetries
      defaultDelay demoWorld false
      (serviceAfter (demoService.trySend (alwaysFails "ProviderA") (mail "m1")
        defaultRetries defaultDelay demoWorld) demoService)
      (worldAfter (demoService.trySend (alwaysFails "ProviderA") (mail "m1")
        defaultRetries defaultDelay demoWorld) demoWorld) rfl).2 rfl).1 (by decide),
   ((backoff_growth demoService (alwaysFails "ProviderA") (mail "m1") defaultRetries
      defaultDelay demoWorld false
      (serviceAfter (demoService.trySend (alwaysFails "ProviderA") (mail "m1")
        defaultRetries defaultDelay demoWorld) demoService)
      (worldAfter (demoService.trySend (alwaysFails "ProviderA") (mail "m1")
        defaultRetries defaultDelay demoWorld) demoWorld) rfl).2 rfl).2 (by decide)⟩

/-- C11 (ledger monotonicity). For every `sendEmail` call that returns: every id of the ledger
before the call is in the ledger after it; an id that is in the ledger afterwards and was not
before is the id of the dispatched message, the call returned `Delivered n` for some
provider name `n`, and the last event of the call is an invocation of `n` for that message
that completed without throwing. -/
theorem ledger_monotone (s : EmailService) (m : Email) (w : World)
    (o : Outcome) (s' : EmailService) (w' : World)
    (h : s.sendEmail m w = some (o, s', w')) :
    (∀ x ∈ s.sentEmails, x ∈ s'.sentEmails) ∧
    (∀ x ∈ s'.sentEmails, x ∉ s.sentEmails →
      x = m.id ∧ ∃ n, o = Outcome.Delivered n ∧
        (newEvents w w').getLast? = some (Event.send n m.id true) ∧
        (n, m.id, true) ∈ sends (newEvents w w')) := by
  refine ⟨fun x hx => sendEmail_ledger_mono h x hx, ?_⟩
  intro x hx hnot
  rcases sendEmail_cases h with ⟨-, -, rfl, -⟩ | ⟨-, -, -, rfl, -⟩ | ⟨-, -, hd⟩
  · exact absurd hx hnot
  · exact absurd hx hnot
  · obtain ⟨evs, htr, -, -, hlast, -⟩ := dispatch_trace hd
    have hnew : newEvents w w' = Event.clock Site.allow (w.clock w.ticks) :: evs := by
      apply newEvents_of_trace
      rw [htr]
      simp [World.dateNow]
    obtain ⟨-, -, ⟨-, hs⟩ | ⟨n, rfl, hs⟩⟩ := dispatch_frame hd
    · rw [hs] at hx; exact absurd hx hnot
    · rw [hs, mem_setAdd] at hx
      rcases hx with hx | rfl
      · exact absurd hx hnot
      · have h2 := hlast n rfl
        refine ⟨rfl, n, rfl, ?_, ?_⟩
        · rw [hnew, ← List.singleton_append, List.getLast?_append, h2]
          rfl
        · rw [hnew]
          simpa [sends] using mem_sends_of_getLast h2

/-- Instance of C11: the first call of the demo service puts `m1`, and only `m1`, into the
ledger, after `ProviderB` accepted it. -/
theorem ledger_monotone_witness :
    "m1" = (mail "m1").id ∧ ∃ n, Outcome.Delivered "ProviderB" = Outcome.Delivered n ∧
      (newEvents demoWorld
          (worldAfter (demoService.sendEmail (mail "m1") demoWorld) demoWorld)).getLast?
        = some (Event.send n (mail "m1").id true) ∧
      (n, (mail "m1").id, true) ∈ sends (newEvents demoWorld
          (worldAfter (demoService.sendEmail (mail "m1") demoWorld) demoWorld)) :=
  (ledger_monotone demoService (mail "m1") demoWorld (Outcome.Delivered "ProviderB")
    (serviceAfter (demoService.sendEmail (mail "m1") demoWorld) demoService)
    (worldAfter (demoService.sendEmail (mail "m1") demoWorld) demoWorld) rfl).2
    "m1" (by decide) (by decide)

/-- C12, counterexample. The constructors check nothing: a service built with an empty
provider list is an object whose `sendEmail` returns the run-time outcome
`AllBackendsFailed`; limiters built with limit 0 and interval 0, or with limit -5 and
interval -1, are objects whose `allow()` returns `false`; a breaker built with threshold 0
and timeout -1 is an object whose `canTry()` returns `true`. -/
theorem unchecked_configuration :
    ((EmailService.new []).sendEmail (mail "m1") demoWorld).map (fun r => r.1)
        = some Outcome.AllBackendsFailed ∧
      (RateLimiter.new 0 0).allow 0 = (false, RateLimiter.new 0 0) ∧
      ((RateLimiter.new (-5) (-1)).allow 0).1 = false ∧
      ((CircuitBreaker.new 0 (-1)).canTry 0).1 = true := by
  refine ⟨by decide, by decide, by decide, by decide⟩

/-- C12, as the code has it. Configuration errors surface at run time, not at construction. A
service constructed with no provider answers `AllBackendsFailed`, without invoking any
backend, to every first dispatch; a limiter with `limit <= 0` rejects every `allow()`; a
limiter with `intervalMs <= 0` and `limit >= 1` forgets every timestamp that is not in the
future and admits; a breaker with `threshold <= 1` is `OPEN` after its first recorded
failure; a breaker with a negative timeout never refuses once the clock has reached the
last failure. -/
theorem configuration_surfaces_at_run_time :
    (∀ (m : Email) (w : World), ∃ s' w',
      (EmailService.new []).sendEmail m w = some (Outcome.AllBackendsFailed, s', w') ∧
        sends (newEvents w w') = []) ∧
    (∀ (limit intervalMs : Int), limit ≤ 0 → ∀ (ts : List Int),
      ((RateLimiter.new limit intervalMs).allowAll ts).1 = List.replicate ts.length false) ∧
    (∀ (r : RateLimiter) (now : Int), r.intervalMs ≤ 0 → 1 ≤ r.limit →
      (∀ t ∈ r.requests, t ≤ now) → r.allow now = (true, { r with requests := [now] })) ∧
    (∀ (threshold timeout now : Int), threshold ≤ 1 →
      ((CircuitBreaker.new threshold timeout).recordFailure now).state = BreakerState.OPEN) ∧
    (∀ (b : CircuitBreaker) (now : Int), b.timeout < 0 → b.lastFailureTime ≤ now →
      (b.canTry now).1 = true) := by
  refine ⟨?_, ?_, ?_, ?_, ?_⟩
  · intro m w
    have hled : m.id ∉ (EmailService.new []).sentEmails := by simp [EmailService.new]
    have hadm : ((EmailService.new []).rateLimiter.allow (w.clock w.ticks)).1 = true := by
      simp [EmailService.new, RateLimiter.new, RateLimiter.allow]
    refine ⟨{ EmailService.new [] with
        rateLimiter := ((EmailService.new []).rateLimiter.allow (w.clock w.ticks)).2 },
      (w.dateNow Site.allow).2, (sendEmail_admitted _ m w hled hadm).trans rfl, ?_⟩
    rw [newEvents_of_trace (show (w.dateNow Site.allow).2.trace
      = w.trace ++ [Event.clock Site.allow (w.clock w.ticks)] from rfl)]
    rfl
  · intro limit intervalMs hlimit ts
    have hstep : ∀ now, (RateLimiter.new limit intervalMs).allow now
        = (false, RateLimiter.new limit intervalMs) := by
      intro now
      simp only [RateLimiter.allow, RateLimiter.new, List.filter_nil, List.length_nil]
      rw [if_pos (by simpa using hlimit)]
    induction ts with
    | nil => rfl
    | cons t ts ih =>
      simp only [RateLimiter.allowAll, hstep, ih, List.length_cons, List.replicate_succ]
  · intro r now hW hlimit hold
    have hf : r.requests.filter (fun t => decide (now - t < r.intervalMs)) = [] := by
      rw [List.filter_eq_nil_iff]
      intro t ht
      have := hold t ht
      simp only [decide_eq_true_eq]
      omega
    simp only [RateLimiter.allow, hf, List.length_nil, List.nil_append]
    rw [if_neg (by push_cast; omega)]
  · intro threshold timeout now hth
    simp only [CircuitBreaker.recordFailure, CircuitBreaker.new]
    rw [if_pos (by push_cast; omega)]
  · intro b now hto hlast
    unfold CircuitBreaker.canTry
    split
    · rw [if_pos (by omega)]
    · rfl

/-- Instance of C12: a limiter of limit 0 rejects two calls in a row. -/
theorem configuration_surfaces_at_run_time_witness :
    ((RateLimiter.new 0 10).allowAll [0, 1]).1 = List.replicate [0, 1].length false :=
  configuration_surfaces_at_run_time.2.1 0 10 (by decide) [0, 1]

set_option maxRecDepth 100000 in
/-- C13, counterexample. A hundred `sendEmail` calls for the same message are started
before any of them is resumed, on a fresh service whose only provider always succeeds, and
are then resumed in turn. The five calls that the rate limiter admitted all passed the
ledger check before any of them reached `sentEmails.add`: all five invoke the provider
successfully and return `Delivered`; the other ninety-five return `RateLimited`. -/
theorem overlapping_calls_all_deliver :
    hundredOverlapping.outcomes
        = List.replicate 5 (some (Outcome.Delivered "ProviderB")) ++
          List.replicate 95 (some Outcome.RateLimited) ∧
      sends hundredOverlapping.world.trace = List.replicate 5 ("ProviderB", "m1", true) := by
  constructor <;> decide

/-- C13, as the code has it. When the calls carrying the same message id are made one after the
other, each one awaited before the next is made, on a fresh service whose only provider
always succeeds: exactly the first call invokes the provider, once and successfully, and
returns `Delivered`; every later call returns `AlreadySent`. (A hundred calls are the case
`more.length = 99`.) -/
theorem sequential_dedup (P : Provider) (hP : ∀ n e, P.sendEmail n e = true) (m : Email)
    (more : List Email) (hid : ∀ e ∈ more, e.id = m.id) (w : World) :
    ∃ s' w', (EmailService.new [P]).sendAll (m :: more) w
        = some (Outcome.Delivered P.name :: List.replicate more.length Outcome.AlreadySent,
            s', w') ∧
      sends (newEvents w w') = [(P.name, m.id, true)] := by
  obtain ⟨s1, w1, h1, hs1, htr⟩ := first_call_delivers P hP m w
  refine ⟨s1, w1, ?_, ?_⟩
  · unfold EmailService.sendAll
    rw [h1]
    dsimp only
    rw [sendAll_already more s1 w1 (fun e he => by rw [hs1, hid e he]; exact List.mem_singleton_self _)]
  · rw [newEvents_of_trace htr]
    rfl

/-- Instance of C13: a hundred calls for `m1`, one after the other. -/
theorem sequential_dedup_witness :
    ∃ s' w', (EmailService.new [alwaysSucceeds "ProviderB"]).sendAll
        (mail "m1" :: List.replicate 99 (mail "m1")) demoWorld
        = some (Outcome.Delivered "ProviderB" ::
            List.replicate (List.replicate 99 (mail "m1")).length Outcome.AlreadySent, s', w') ∧
      sends (newEvents demoWorld w') = [("ProviderB", "m1", true)] :=
  sequential_dedup (alwaysSucceeds "ProviderB") (fun _ _ => rfl) (mail "m1")
    (List.replicate 99 (mail "m1")) (fun e he => by rw [List.eq_of_mem_replicate he]) demoWorld

/-- C14, counterexample. A fresh `RateLimiter(1, 0)` has limit `>= 0`; its first
`allow()`, at time 0, records the timestamp 0, and `0 - 0 < 0` is false: the timestamp just
recorded is not newer than `now - intervalMs`. -/
theorem sliding_window_zero_interval :
    (RateLimiter.new 1 0).Reachable ∧ 0 ≤ (RateLimiter.new 1 0).limit ∧
      ¬ ((((RateLimiter.new 1 0).allow 0).2.requests.length : Int) ≤ (RateLimiter.new 1 0).limit ∧
        ∀ t ∈ ((RateLimiter.new 1 0).allow 0).2.requests,
          0 - t < (RateLimiter.new 1 0).intervalMs) :=
  ⟨RateLimiter.Reachable.fresh 1 0, by decide, by decide⟩

/-- C14, as the code has it. For every limiter with `limit >= 0` and `intervalMs > 0` reached from
the constructor by `allow()` calls (at any clock values, non-decreasing ones included):
immediately after each `allow()` call at time `now` the limiter holds at most `limit`
timestamps and every retained timestamp `t` satisfies `now - t < intervalMs`. -/
theorem sliding_window_bound (r : RateLimiter) (hr : r.Reachable) (hlimit : 0 ≤ r.limit)
    (hW : 0 < r.intervalMs) (now : Int) :
    ((r.allow now).2.requests.length : Int) ≤ r.limit ∧
      ∀ t ∈ (r.allow now).2.requests, now - t < r.intervalMs := by
  refine ⟨?_, allow_requests_fresh r now hW⟩
  apply allow_requests_bound
  rcases reachable_bound hr with h0 | hb
  · rw [h0]; simpa using hlimit
  · exact hb

/-- Instance of C14: limit 1, window 10, calls at times 0 and 5. -/
theorem sliding_window_bound_witness :
    ((((RateLimiter.new 1 10).allow 0).2.allow 5).2.requests.length : Int)
        ≤ ((RateLimiter.new 1 10).allow 0).2.limit ∧
      ∀ t ∈ (((RateLimiter.new 1 10).allow 0).2.allow 5).2.requests,
        5 - t < ((RateLimiter.new 1 10).allow 0).2.intervalMs :=
  sliding_window_bound ((RateLimiter.new 1 10).allow 0).2
    (RateLimiter.Reachable.allow 0 (RateLimiter.Reachable.fresh 1 10)) (by decide) (by decide) 5

/-- C15, counterexample. The breaker of the service (threshold 3, timeout 10 s) after
failures at 1 s, 2 s and 3 s is reachable and `OPEN`; at clock time 20 s its counter has
reached the threshold but the time since the last failure, 17 s, exceeds the timeout, and
the stored state is still `OPEN`. -/
theorem breaker_open_after_timeout :
    ((CircuitBreaker.new 3 10000).recordFailures [1000, 2000, 3000]).Reachable ∧
      ¬ (((CircuitBreaker.new 3 10000).recordFailures [1000, 2000, 3000]).state
            = BreakerState.OPEN ↔
          (((CircuitBreaker.new 3 10000).recordFailures [1000, 2000, 3000]).threshold
              ≤ (((CircuitBreaker.new 3 10000).recordFailures [1000, 2000, 3000]).failureCount : Int) ∧
            20000 - ((CircuitBreaker.new 3 10000).recordFailures [1000, 2000, 3000]).lastFailureTime
              ≤ ((CircuitBreaker.new 3 10000).recordFailures [1000, 2000, 3000]).timeout)) :=
  ⟨CircuitBreaker.Reachable.recordFailure 3000 (CircuitBreaker.Reachable.recordFailure 2000
      (CircuitBreaker.Reachable.recordFailure 1000 (CircuitBreaker.Reachable.fresh 3 10000))),
    by decide⟩

/-- C15, as the code has it. In every state of a breaker with `threshold >= 1` reachable by
`canTry` / `recordFailure` / `reset` calls, and at every clock time `now`: `state = OPEN`
holds iff `failureCount` has reached `threshold` since the last reset, whatever the elapsed
time; the elapsed time enters only through `canTry()`, which returns `false` iff the counter
has reached the threshold and the time since `lastFailureTime` does not exceed `timeout`,
and which resets an `OPEN` breaker when called later than that. -/
theorem breaker_open_lazy_timeout (b : CircuitBreaker) (hr : b.Reachable)
    (hth : 1 ≤ b.threshold) (now : Int) :
    (b.state = BreakerState.OPEN ↔ b.threshold ≤ (b.failureCount : Int)) ∧
    ((b.canTry now).1 = false ↔
      (b.threshold ≤ (b.failureCount : Int) ∧ now - b.lastFailureTime ≤ b.timeout)) ∧
    (b.state = BreakerState.OPEN → now - b.lastFailureTime > b.timeout →
      b.canTry now = (true, b.reset)) := by
  have hinv := breaker_open_iff hr hth
  refine ⟨hinv, ?_, ?_⟩
  · unfold CircuitBreaker.canTry
    by_cases hopen : b.state = BreakerState.OPEN
    · rw [if_pos hopen]
      by_cases hlate : now - b.lastFailureTime > b.timeout
      · rw [if_pos hlate]
        constructor
        · intro h; cases h
        · rintro ⟨-, h⟩; omega
      · rw [if_neg hlate]
        exact ⟨fun _ => ⟨hinv.1 hopen, by omega⟩, fun _ => rfl⟩
    · rw [if_neg hopen]
      constructor
      · intro h; cases h
      · rintro ⟨h, -⟩; exact absurd (hinv.2 h) hopen
  · intro hopen hlate
    unfold CircuitBreaker.canTry
    rw [if_pos hopen, if_pos hlate]

/-- Instance of C15: the breaker of the counterexample is reset by the
`canTry()` made at 20 s. -/
theorem breaker_open_lazy_timeout_witness :
    ((CircuitBreaker.new 3 10000).recordFailures [1000, 2000, 3000]).canTry 20000
      = (true, ((CircuitBreaker.new 3 10000).recordFailures [1000, 2000, 3000]).reset) :=
  (breaker_open_lazy_timeout ((CircuitBreaker.new 3 10000).recordFailures [1000, 2000, 3000])
    (CircuitBreaker.Reachable.recordFailure 3000 (CircuitBreaker.Reachable.recordFailure 2000
      (CircuitBreaker.Reachable.recordFailure 1000 (CircuitBreaker.Reachable.fresh 3 10000))))
    (by decide) 20000).2.2 (by decide) (by decide)

/-- C16 (retry executor result). For every provider that has a breaker which admits it, and
whatever the outcomes of the attempts (attempt `j` is backend invocation `w.calls + j` of the
run): `trySend` returns, so it never throws; it returns `true` iff one of the first
`retries` attempts succeeds; it invokes the provider exactly `k + 1` times when `k < retries`
is the index of the first succeeding attempt, and exactly `retries` times when none of the
first `retries` attempts succeeds; and on a `true` result the breaker of the provider is
`CLOSED` with `failureCount` 0. -/
theorem retry_executor_result (s : EmailService) (p : Provider) (m : Email) (r : Nat) (d : Int)
    (w : World) (b : CircuitBreaker) (hb : s.circuitBreakers p.name = some b)
    (hadm : (b.canTryIn w).1 = true) :
    ∃ ok s' w', s.trySend p m r d w = some (ok, s', w') ∧
      (ok = true ↔ ∃ j, j < r ∧ p.sendEmail (w.calls + j) m = true) ∧
      (∀ k, k < r → (∀ j, j < k → p.sendEmail (w.calls + j) m = false) →
        p.sendEmail (w.calls + k) m = true → (sends (newEvents w w')).length = k + 1) ∧
      ((∀ j, j < r → p.sendEmail (w.calls + j) m = false) →
        (sends (newEvents w w')).length = r) ∧
      w'.calls = w.calls + (sends (newEvents w w')).length ∧
      (ok = true → ∃ b', s'.circuitBreakers p.name = some b' ∧
        b'.state = BreakerState.CLOSED ∧ b'.failureCount = 0) := by
  obtain ⟨hg, hc, hcalls0⟩ := canTryIn_run b w
  obtain ⟨k0, -, htr, hcalls, hfail, ht, hf, -, -⟩ :=
    attempts_outcomes p m d r 0 (b.canTryIn w).2.1 (b.canTryIn w).2.2
  rw [hcalls0] at hcalls hfail ht
  refine ⟨_, _, _, trySend_admitted s p m r d w b hb hadm, ?_⟩
  have hnew : newEvents w (EmailService.attempts p m d r 0 (b.canTryIn w).2.1
      (b.canTryIn w).2.2).2.2 = gateEvents b w ++
        (failedAttempts p.name m.id d (b.canTryIn w).2.2.clock k0 0 (b.canTryIn w).2.2.ticks ++
          successEvent p.name m.id
            (EmailService.attempts p m d r 0 (b.canTryIn w).2.1 (b.canTryIn w).2.2).1) := by
    apply newEvents_of_trace
    rw [htr, hg, List.append_assoc]
  have hlen : (sends (newEvents w (EmailService.attempts p m d r 0 (b.canTryIn w).2.1
      (b.canTryIn w).2.2).2.2)).length
      = k0 + (if (EmailService.attempts p m d r 0 (b.canTryIn w).2.1
          (b.canTryIn w).2.2).1 then 1 else 0) := by
    rw [hnew]
    simp only [sends_append, sends_gate, sends_failedAttempts, sends_successEvent,
      List.nil_append, List.length_append, List.length_replicate]
    split <;> rfl
  generalize EmailService.attempts p m d r 0 (b.canTryIn w).2.1 (b.canTryIn w).2.2 = res
    at hcalls ht hf hlen ⊢
  obtain ⟨ok, b', w'⟩ := res
  dsimp only at hcalls ht hf hlen ⊢
  refine ⟨?_, ?_, ?_, ?_, ?_⟩
  · constructor
    · intro h
      obtain ⟨h1, h2, -, -⟩ := ht h
      exact ⟨k0, h1, h2⟩
    · rintro ⟨j, hj, hjt⟩
      cases ok with
      | true => rfl
      | false =>
        obtain ⟨h1, -⟩ := hf rfl
        have := hfail j (by omega)
        rw [this] at hjt
        cases hjt
  · intro k hk hbefore hsucc
    cases ok with
    | false =>
      obtain ⟨h1, -⟩ := hf rfl
      have := hfail k (by omega)
      rw [this] at hsucc
      cases hsucc
    | true =>
      obtain ⟨h1, h2, -, -⟩ := ht rfl
      rw [hlen]
      have hk0 : k0 = k := by
        rcases Nat.lt_trichotomy k0 k with h | h | h
        · have := hbefore k0 h
          rw [this] at h2
          cases h2
        · exact h
        · have := hfail k h
          rw [this] at hsucc
          cases hsucc
      simp [hk0]
  · intro hnone
    cases ok with
    | false =>
      obtain ⟨h1, -⟩ := hf rfl
      rw [hlen, h1]
      simp
    | true =>
      obtain ⟨h1, h2, -, -⟩ := ht rfl
      have := hnone k0 h1
      rw [this] at h2
      cases h2
  · rw [hlen, hcalls]
    omega
  · intro h
    obtain ⟨-, -, h3, h4⟩ := ht h
    exact ⟨b', by simp [setBreaker], h3, h4⟩

/-- Instance of C16: `ProviderB` of the demo service, admitted by its fresh breaker. -/
theorem retry_executor_result_witness :
    ∃ ok s' w', demoService.trySend (alwaysSucceeds "ProviderB") (mail "m1") defaultRetries
        defaultDelay demoWorld = some (ok, s', w') ∧
      (ok = true ↔ ∃ j, j < defaultRetries ∧
        (alwaysSucceeds "ProviderB").sendEmail (demoWorld.calls + j) (mail "m1") = true) ∧
      (∀ k, k < defaultRetries →
        (∀ j, j < k →
          (alwaysSucceeds "ProviderB").sendEmail (demoWorld.calls + j) (mail "m1") = false) →
        (alwaysSucceeds "ProviderB").sendEmail (demoWorld.calls + k) (mail "m1") = true →
          (sends (newEvents demoWorld w')).length = k + 1) ∧
      ((∀ j, j < defaultRetries →
          (alwaysSucceeds "ProviderB").sendEmail (demoWorld.calls + j) (mail "m1") = false) →
        (sends (newEvents demoWorld w')).length = defaultRetries) ∧
      w'.calls = demoWorld.calls + (sends (newEvents demoWorld w')).length ∧
      (ok = true → ∃ b', s'.circuitBreakers (alwaysSucceeds "ProviderB").name = some b' ∧
        b'.state = BreakerState.CLOSED ∧ b'.failureCount = 0) :=
  retry_executor_result demoService (alwaysSucceeds "ProviderB") (mail "m1") defaultRetries
    defaultDelay demoWorld (CircuitBreaker.new 3 10000) rfl (by decide)

/-- C17 (open breaker skip). For every provider whose breaker is `OPEN` with the time since
`lastFailureTime` not exceeding `timeout`: `trySend` returns `false`; the only thing that
happens is the clock reading of `canTry()`, so the provider is not invoked and there is no
backoff wait; and the service, with that breaker (its `failureCount`, `state` and
`lastFailureTime` included), is left as it was. -/
theorem open_breaker_skip (s : EmailService) (p : Provider) (m : Email) (r : Nat) (d : Int)
    (w : World) (b : CircuitBreaker) (hb : s.circuitBreakers p.name = some b)
    (hopen : b.state = BreakerState.OPEN)
    (hearly : w.clock w.ticks - b.lastFailureTime ≤ b.timeout) :
    ∃ w', s.trySend p m r d w = some (false, s, w') ∧
      newEvents w w' = [Event.clock Site.canTry (w.clock w.ticks)] ∧
      sends (newEvents w w') = [] ∧ waits (newEvents w w') = [] ∧ w'.calls = w.calls ∧
      s.circuitBreakers p.name = some b := by
  have hc : b.canTryIn w = (false, b, (w.dateNow Site.canTry).2) := by
    unfold CircuitBreaker.canTryIn CircuitBreaker.canTry
    rw [if_pos hopen]
    dsimp only
    rw [if_pos hopen, if_neg (by simp only [World.dateNow]; omega)]
  refine ⟨(w.dateNow Site.canTry).2, ?_, ?_, ?_, ?_, rfl, hb⟩
  · unfold EmailService.trySend
    rw [hb]
    dsimp only
    rw [hc]
    simp only [if_true, setBreaker_self _ _ _ hb]
  · exact newEvents_of_trace rfl
  · rw [newEvents_of_trace (show (w.dateNow Site.canTry).2.trace
      = w.trace ++ [Event.clock Site.canTry (w.clock w.ticks)] from rfl)]
    rfl
  · rw [newEvents_of_trace (show (w.dateNow Site.canTry).2.trace
      = w.trace ++ [Event.clock Site.canTry (w.clock w.ticks)] from rfl)]
    rfl

/-- Instance of C17: after its first call the demo service holds an `OPEN` breaker for
`ProviderA`, last failure at 3 s; a `trySend` on `ProviderA` at 4 s is skipped. -/
theorem open_breaker_skip_witness :
    ∃ w', (serviceAfter (demoService.sendEmail (mail "m1") demoWorld) demoService).trySend
        (alwaysFails "ProviderA") (mail "m2") defaultRetries defaultDelay
        (worldAfter (demoService.sendEmail (mail "m1") demoWorld) demoWorld)
        = some (false, serviceAfter (demoService.sendEmail (mail "m1") demoWorld) demoService,
            w') ∧
      newEvents (worldAfter (demoService.sendEmail (mail "m1") demoWorld) demoWorld) w'
        = [Event.clock Site.canTry
            ((worldAfter (demoService.sendEmail (mail "m1") demoWorld) demoWorld).clock
              (worldAfter (demoService.sendEmail (mail "m1") demoWorld) demoWorld).ticks)] ∧
      sends (newEvents (worldAfter (demoService.sendEmail (mail "m1") demoWorld) demoWorld) w')
        = [] ∧
      waits (newEvents (worldAfter (demoService.sendEmail (mail "m1") demoWorld) demoWorld) w')
        = [] ∧
      w'.calls = (worldAfter (demoService.sendEmail (mail "m1") demoWorld) demoWorld).calls ∧
      (serviceAfter (demoService.sendEmail (mail "m1") demoWorld) demoService).circuitBreakers
          (alwaysFails "ProviderA").name
        = some { threshold := 3, timeout := 10000, failureCount := 3,
                 state := BreakerState.OPEN, lastFailureTime := 3000 } :=
  open_breaker_skip (serviceAfter (demoService.sendEmail (mail "m1") demoWorld) demoService)
    (alwaysFails "ProviderA") (mail "m2") defaultRetries defaultDelay
    (worldAfter (demoService.sendEmail (mail "m1") demoWorld) demoWorld)
    { threshold := 3, timeout := 10000, failureCount := 3, state := BreakerState.OPEN,
      lastFailureTime := 3000 }
    rfl rfl (by decide)

/-- C18 (one limiter slot per dispatch). Every `sendEmail` call that returns neither
`AlreadySent` nor `RateLimited` (so `Delivered` or `AllBackendsFailed`, whether or not a
provider was invoked) makes exactly one admission check and leaves in the limiter the
timestamps that were still in the window followed by exactly one new one, the time of the
check; a call that returns `AlreadySent` leaves the rate limiter, and the world, untouched. -/
theorem limiter_slot (s : EmailService) (m : Email) (w : World)
    (o : Outcome) (s' : EmailService) (w' : World)
    (h : s.sendEmail m w = some (o, s', w')) :
    (o ≠ Outcome.AlreadySent → o ≠ Outcome.RateLimited →
      s'.rateLimiter.requests
        = s.rateLimiter.requests.filter
            (fun t => decide (w.clock w.ticks - t < s.rateLimiter.intervalMs))
          ++ [w.clock w.ticks] ∧
      s'.rateLimiter.limit = s.rateLimiter.limit ∧
      s'.rateLimiter.intervalMs = s.rateLimiter.intervalMs ∧
      admissionTimes (newEvents w w') = [w.clock w.ticks]) ∧
    (o = Outcome.AlreadySent → s'.rateLimiter = s.rateLimiter ∧ w' = w) := by
  rcases sendEmail_cases h with ⟨-, rfl, rfl, rfl⟩ | ⟨-, -, rfl, -, -⟩ | ⟨-, hadm, hd⟩
  · exact ⟨fun h1 _ => absurd rfl h1, fun _ => ⟨rfl, rfl⟩⟩
  · exact ⟨fun _ h2 => absurd rfl h2, fun h1 => by cases h1⟩
  · obtain ⟨evs, htr, -, ha, -, -⟩ := dispatch_trace hd
    obtain ⟨-, hr, hs⟩ := dispatch_frame hd
    have hnew : newEvents w w' = Event.clock Site.allow (w.clock w.ticks) :: evs := by
      apply newEvents_of_trace
      rw [htr]
      simp [World.dateNow]
    refine ⟨fun _ _ => ?_, ?_⟩
    · rw [hr, hnew]
      dsimp only
      unfold RateLimiter.allow at hadm ⊢
      dsimp only at hadm ⊢
      split
      · rename_i hfull
        rw [if_pos hfull] at hadm
        simp at hadm
      · exact ⟨rfl, rfl, rfl, by simp [admissionTimes, ha]⟩
    · intro ho
      rcases hs with ⟨rfl, -⟩ | ⟨n, rfl, -⟩ <;> cases ho

/-- Instance of C18: the first call of the demo service records the timestamp 0. -/
theorem limiter_slot_witness :
    (serviceAfter (demoService.sendEmail (mail "m1") demoWorld) demoService).rateLimiter.requests
      = demoService.rateLimiter.requests.filter
          (fun t => decide (demoWorld.clock demoWorld.ticks - t
            < demoService.rateLimiter.intervalMs))
        ++ [demoWorld.clock demoWorld.ticks] :=
  ((limiter_slot demoService (mail "m1") demoWorld (Outcome.Delivered "ProviderB")
    (serviceAfter (demoService.sendEmail (mail "m1") demoWorld) demoService)
    (worldAfter (demoService.sendEmail (mail "m1") demoWorld) demoWorld) rfl).1
    (by decide) (by decide)).1

/-- C19 (implicit breaker invariant). For every breaker constructed with `threshold >= 1`,
in every state reachable by any sequence of `canTry` / `recordFailure` / `reset` calls at
any clock times: `state = OPEN` holds iff `failureCount >= threshold`, independently of the
elapsed time. -/
theorem breaker_open_iff_count (b : CircuitBreaker) (hr : b.Reachable) (hth : 1 ≤ b.threshold) :
    b.state = BreakerState.OPEN ↔ (b.failureCount : Int) ≥ b.threshold :=
  breaker_open_iff hr hth

/-- Instance of C19: the breaker of the service after three failures. -/
theorem breaker_open_iff_count_witness :
    ((CircuitBreaker.new 3 10000).recordFailures [1000, 2000, 3000]).state = BreakerState.OPEN ↔
      (((CircuitBreaker.new 3 10000).recordFailures [1000, 2000, 3000]).failureCount : Int)
        ≥ ((CircuitBreaker.new 3 10000).recordFailures [1000, 2000, 3000]).threshold :=
  breaker_open_iff_count ((CircuitBreaker.new 3 10000).recordFailures [1000, 2000, 3000])
    (CircuitBreaker.Reachable.recordFailure 3000 (CircuitBreaker.Reachable.recordFailure 2000
      (CircuitBreaker.Reachable.recordFailure 1000 (CircuitBreaker.Reachable.fresh 3 10000))))
    (by decide)

/-- C20 (implicit service-level breaker invariant). For a service used only through
`sendEmail` calls made one after the other, with any providers, any messages and in any
world: the calls all return, and after construction and after every completed call every
breaker of the service is either `CLOSED` with `failureCount` 0 or `OPEN` with
`failureCount` exactly 3; every provider has such a breaker; and consequently a `canTry()`
that admits, at any time, hands `trySend` a breaker with `failureCount` 0. -/
theorem service_breakers_settled (ps : List Provider) (ms : List Email) (w : World) :
    ∃ outs s' w', (EmailService.new ps).sendAll ms w = some (outs, s', w') ∧
      (∀ name b, s'.circuitBreakers name = some b →
        (b.state = BreakerState.CLOSED ∧ b.failureCount = 0) ∨
          (b.state = BreakerState.OPEN ∧ b.failureCount = 3)) ∧
      (∀ (p : Provider), p ∈ ps → ∃ b, s'.circuitBreakers p.name = some b) ∧
      (∀ name b (w1 : World), s'.circuitBreakers name = some b → (b.canTryIn w1).1 = true →
        (b.canTryIn w1).2.1.failureCount = 0) := by
  obtain ⟨outs, s', w', h, hreg, hs, hp⟩ :=
    sendAll_returns ms (EmailService.new ps) w (new_registered ps) (new_settled ps)
  refine ⟨outs, s', w', h, fun name b hb => (hs name b hb).2, ?_, ?_⟩
  · intro p hmem
    exact Option.isSome_iff_exists.1 (hreg p (by rw [hp]; exact hmem))
  · intro name b w1 hb hadm
    exact ((canTryIn_settled b w1 (hs name b hb)).2 hadm).2.1

end EmailSvc
